import Mathlib

/-!
# Verification of the wrdlHelper intelligent solver

Shallow embedding of the decision engine of the wrdlHelper Wordle solver
(`rust/src/api/wrdl_helper.rs` and `rust/src/api/simple.rs`):

* the pattern simulator `simulate_guess_pattern`,
* the constraint filter `word_matches_single_feedback` /
  `word_matches_all_feedback` / `filter_words_with_feedback`,
* the entropy scorer `calculate_entropy` and statistical scorer,
* the candidate selector `IntelligentSolver::get_best_guess` together with
  `get_candidate_words`, the curated strategic word lists, the
  `WordManager` first-guess cache, and the FFI entry point `get_best_guess`.

Rust `String` words are modelled as `List Char` (the code works on
`word.chars().collect::<Vec<char>>()`).  Rust's panicking index `v[i]` is
modelled in two ways: the simulator is embedded with `List.get?` in the
`Option` monad so the out-of-bounds panic is observable as `none`
(claim C10 is about exactly this), while the constraint matcher — which all
claims apply only to five-letter data — uses `List.getD` with a junk
default, together with explicit length-5 hypotheses in the theorems.
`f64` values are modelled as real numbers; `f64::NEG_INFINITY` as the
initial best score is modelled by letting the running best be an
`Option (word × ℝ)` whose `none` case always accepts the first candidate
(every score the code computes is a finite float, strictly above
`NEG_INFINITY`).
-/

namespace WrdlHelper

/-- A word is the character sequence of a Rust `String`. -/
abbrev Word := List Char

/-- `LetterResult` from `wrdl_helper.rs`: the three feedback markers. -/
inductive LetterResult where
  | Gray
  | Yellow
  | Green
deriving DecidableEq, Repr

/-- `GuessResult` from `wrdl_helper.rs`: a guessed word with its
per-position feedback. -/
structure GuessResult where
  word : Word
  results : List LetterResult
deriving DecidableEq, Repr

/-! ## Pattern simulator (`IntelligentSolver::simulate_guess_pattern`)

The Rust code indexes `guess_chars[i]` and `target_chars[i]` for
`i = 0..4`, which panics when either word is shorter than five
characters.  The embedding threads `Option`: a `none` result marks the
panic.  `pass1` marks greens and blanks the matched buffer cells;
`pass2` marks yellows, consuming the first matching buffer cell. -/

/-- First pass of `simulate_guess_pattern`: for each index `i`, if
`guess[i] == target_buffer[i]` set `result[i] = 'G'` and blank the
buffer cell.  Returns `(result, buffer)`. -/
def pass1 (guess : Word) : List Nat → List Char → List Char → Option (List Char × List Char)
  | [], result, tbuf => some (result, tbuf)
  | i :: rest, result, tbuf => do
      let gc ← guess[i]?
      let tc ← tbuf[i]?
      if gc = tc then
        pass1 guess rest (result.set i 'G') (tbuf.set i ' ')
      else
        pass1 guess rest result tbuf

/-- Rust's `iter().position(pred)`: index of the first element
satisfying the predicate. -/
def position (p : Char → Bool) : List Char → Option Nat
  | [] => none
  | c :: rest => if p c then some 0 else (position p rest).map (· + 1)

/-- Second pass of `simulate_guess_pattern`: for each index `i` still
marked `'X'`, if `guess[i]` occurs in the buffer, set `result[i] = 'Y'`
and blank the first such buffer cell. -/
def pass2 (guess : Word) : List Nat → List Char → List Char → Option (List Char × List Char)
  | [], result, tbuf => some (result, tbuf)
  | i :: rest, result, tbuf => do
      let gc ← guess[i]?
      if result.getD i ' ' = 'X' then
        match position (fun c => c = gc) tbuf with
        | some pos => pass2 guess rest (result.set i 'Y') (tbuf.set pos ' ')
        | none => pass2 guess rest result tbuf
      else
        pass2 guess rest result tbuf

/-- `IntelligentSolver::simulate_guess_pattern` (wrdl_helper.rs):
`none` models the out-of-bounds panic on inputs shorter than five
characters. -/
def simulate_guess_pattern (guess target : Word) : Option (List Char) := do
  let (res, tbuf) ← pass1 guess (List.range 5) (List.replicate 5 'X') target
  let (res2, _) ← pass2 guess (List.range 5) res tbuf
  pure res2

/-- Total wrapper for the simulator, used by the scorer below.  On the
five-letter inputs all claims are about it agrees with
`simulate_guess_pattern`; elsewhere the Rust code panics. -/
def simulatePattern (guess target : Word) : List Char :=
  (simulate_guess_pattern guess target).getD []

/-! ## Constraint filter (`simple.rs` lines 687–739)

`word_matches_single_feedback` checks, in order: green letters (exact
position), yellow letters (banned position + the letter occurs
somewhere in the candidate), and gray letters (the candidate holds no
more occurrences of the letter than the number of green/yellow
positions of that letter in the guess; `unwrap_or(0)` makes the bound 0
for a letter that is only gray).  The `required_counts` hash map is
embedded as a counting function over the five positions. -/

/-- Number of occurrences of `ch` in `w`
(`chars().filter(|&&c| c == ch).count()`). -/
def countChar (w : Word) (ch : Char) : Nat :=
  w.countP (fun c => c = ch)

/-- `required_counts[ch]` built by `word_matches_single_feedback`: the
number of positions of the guess marked Green or Yellow and carrying
letter `ch` (`unwrap_or(0)` when `ch` has no such position). -/
def requiredCount (gr : GuessResult) (ch : Char) : Nat :=
  (List.range 5).countP (fun i =>
    (gr.results.getD i .Gray = .Green ∨ gr.results.getD i .Gray = .Yellow) ∧
      gr.word.getD i ' ' = ch)

/-- `word_matches_single_feedback` (simple.rs lines 687–739). -/
def word_matches_single_feedback (candidate : Word) (gr : GuessResult) : Bool :=
  -- greens: exact position matches
  ((List.range 5).all fun i =>
    if gr.results.getD i .Gray = .Green then
      candidate.getD i ' ' = gr.word.getD i ' '
    else true) &&
  -- yellows: banned position, but the letter must occur somewhere
  ((List.range 5).all fun i =>
    if gr.results.getD i .Gray = .Yellow then
      candidate.getD i ' ' ≠ gr.word.getD i ' ' &&
        candidate.contains (gr.word.getD i ' ')
    else true) &&
  -- grays: no more occurrences than green/yellow positions demand
  ((List.range 5).all fun i =>
    if gr.results.getD i .Gray = .Gray then
      countChar candidate (gr.word.getD i ' ') ≤ requiredCount gr (gr.word.getD i ' ')
    else true)

/-- `word_matches_all_feedback` (simple.rs): conjunction over the
history. -/
def word_matches_all_feedback (candidate : Word) (grs : List GuessResult) : Bool :=
  grs.all fun gr => word_matches_single_feedback candidate gr

/-- `filter_words_with_feedback` (simple.rs): keep the words consistent
with every record. -/
def filter_words_with_feedback (words : List Word) (grs : List GuessResult) : List Word :=
  words.filter fun w => word_matches_all_feedback w grs

/-! ## FFI pattern-token decoding (simple.rs `get_best_guess`)

The FFI layer receives patterns as five strings; `"G"` decodes to
`Green`, `"Y"` to `Yellow`, and `"X"` — like every unknown token — to
`Gray`.  The decoded vector is then indexed at 0..4
(`[results[0], …, results[4]]`), modelled with `getD` (the code panics
on shorter token lists; all claims use five-token patterns). -/

/-- Decoding of one pattern token (simple.rs lines 109–114). -/
def decodeToken (s : String) : LetterResult :=
  if s = "G" then .Green
  else if s = "Y" then .Yellow
  else .Gray

/-- Conversion of one FFI record to the internal `GuessResult`
(simple.rs lines 107–121). -/
def decodeRecord (w : Word) (pattern : List String) : GuessResult :=
  let results := pattern.map decodeToken
  { word := w,
    results := [results.getD 0 .Gray, results.getD 1 .Gray, results.getD 2 .Gray,
      results.getD 3 .Gray, results.getD 4 .Gray] }

/-- The compact encoding of a marker as the simulator's pattern
character (`G`/`Y`/`X`), used to relate recorded feedback to simulated
feedback. -/
def encodeMarker : LetterResult → Char
  | .Green => 'G'
  | .Yellow => 'Y'
  | .Gray => 'X'

/-! ## Configuration and word repository -/

/-- `SolverConfig` (wrdl_helper.rs).  `candidate_cap` is an `i32`;
`early_termination_threshold` is an `f64`, modelled as a real. -/
structure SolverConfig where
  reference_mode : Bool
  include_killer_words : Bool
  candidate_cap : Int
  early_termination_enabled : Bool
  early_termination_threshold : ℝ
  entropy_only_scoring : Bool

/-- The initial value of the global `SOLVER_CONFIG`
(wrdl_helper.rs lines 137–146). -/
noncomputable def defaultConfig : SolverConfig :=
  { reference_mode := false,
    include_killer_words := false,
    candidate_cap := 200,
    early_termination_enabled := true,
    early_termination_threshold := 5.0,
    entropy_only_scoring := false }

/-- Rust's `config.candidate_cap as usize` on an `i32`: reinterpret the
sign-extended value modulo `2^64`. -/
def usizeCast (n : Int) : Nat :=
  (n % (2 ^ 64 : Int)).toNat

/-- `WordManager` (wrdl_helper.rs): the two lexicons and the cached
optimal first guess. -/
structure WordManager where
  answer_words : List Word
  guess_words : List Word
  optimal_first_guess : Option Word

/-- The probe list of `compute_optimal_first_guess`
(wrdl_helper.rs line 105). -/
def optimal_first_guesses : List Word :=
  ["TARES".toList, "SLATE".toList, "CRANE".toList, "CRATE".toList, "SLANT".toList]

/-- The probe scan of `compute_optimal_first_guess`: return the first
probe word some lexicon entry uppercases to; `none` when no probe
matches (the loop body has no fallback). -/
def probeScan (guess_words : List Word) : List Word → Option Word
  | [] => none
  | p :: rest =>
      if guess_words.any (fun w => w.map Char.toUpper = p) then some p
      else probeScan guess_words rest

/-- `WordManager::compute_optimal_first_guess` (wrdl_helper.rs lines
95–115), as the value the field `optimal_first_guess` holds after the
call: `none` for an empty lexicon, otherwise the probe scan result. -/
def compute_optimal_first_guess (guess_words : List Word) : Option Word :=
  if guess_words.isEmpty then none
  else probeScan guess_words optimal_first_guesses

/-! ## Curated strategic word lists (wrdl_helper.rs) -/

/-- `IntelligentSolver::get_killer_words` (wrdl_helper.rs lines
345–361). -/
def get_killer_words : List Word :=
  ["SLATE".toList, "CRANE".toList, "TRACE".toList,
   "SLANT".toList, "CRATE".toList, "CARTE".toList,
   "LEAST".toList, "STARE".toList, "TARES".toList,
   "RAISE".toList, "ARISE".toList, "SOARE".toList,
   "ADIEU".toList, "AUDIO".toList, "ROATE".toList,
   "OUIJA".toList, "AUREI".toList, "OURIE".toList,
   "PSYCH".toList, "GLYPH".toList, "VOMIT".toList,
   "JUMBO".toList, "ZEBRA".toList]

/-- `IntelligentSolver::get_top_strategic_words` (wrdl_helper.rs lines
367–417). -/
def get_top_strategic_words : List Word :=
  ["SLATE".toList, "CRANE".toList, "TRACE".toList,
   "SLANT".toList, "CRATE".toList, "CARTE".toList,
   "LEAST".toList, "STARE".toList, "TARES".toList,
   "RAISE".toList, "ARISE".toList, "SOARE".toList,
   "ADIEU".toList, "AUDIO".toList, "ROATE".toList,
   "OUIJA".toList, "AUREI".toList, "OURIE".toList,
   "ALIEN".toList, "ALIKE".toList, "ALIVE".toList,
   "STERN".toList, "STONE".toList, "STORE".toList,
   "STORY".toList, "STORK".toList, "STORM".toList,
   "STOUT".toList, "STOIC".toList, "STOMP".toList,
   "CREST".toList, "CRISP".toList, "CRUSH".toList,
   "CRUMB".toList, "CRUEL".toList, "CRUDE".toList,
   "CRASH".toList, "CRAMP".toList, "CRAFT".toList,
   "PLATE".toList, "PLACE".toList, "PLANT".toList,
   "PLANK".toList, "PLAID".toList, "PLAIN".toList,
   "GRATE".toList, "GRANT".toList, "GRASP".toList,
   "GRAND".toList, "GRACE".toList, "GRADE".toList,
   "BLADE".toList, "BLAME".toList, "BLANK".toList,
   "BLARE".toList, "BLAST".toList, "BLEND".toList,
   "CHASE".toList, "CHART".toList, "CHARM".toList,
   "CHALK".toList, "CHAIN".toList, "CHAIR".toList,
   "FLAME".toList, "FLARE".toList, "FLASH".toList,
   "FLANK".toList, "FLASK".toList, "FLINT".toList,
   "PRIDE".toList, "PRIME".toList, "PRINT".toList,
   "PRISM".toList, "PRICK".toList, "PRICE".toList,
   "SHADE".toList, "SHAKE".toList, "SHAME".toList,
   "SHAPE".toList, "SHARE".toList, "SHARK".toList,
   "THANK".toList, "THINK".toList, "THICK".toList,
   "THROW".toList, "THREE".toList, "THREW".toList]

/-! ## Scoring (`IntelligentSolver`) -/

/-- `IntelligentSolver::calculate_entropy` (wrdl_helper.rs lines
224–249).  The pattern groups of the `HashMap` are embedded as the
deduplicated pattern list with multiplicities; the Shannon sum
`-p * (p.ln() / LN_2)` is `-p * logb 2 p`. -/
noncomputable def calculate_entropy (candidate : Word) (remaining : List Word) : ℝ :=
  if remaining.length = 0 ∨ remaining.length = 1 then 0
  else
    ((remaining.map fun t => simulatePattern candidate t).dedup.map fun p =>
      if 0 < ((remaining.map fun t => simulatePattern candidate t).count p : ℝ) /
          (remaining.length : ℝ) then
        -(((remaining.map fun t => simulatePattern candidate t).count p : ℝ) /
            (remaining.length : ℝ) *
          Real.logb 2
            (((remaining.map fun t => simulatePattern candidate t).count p : ℝ) /
              (remaining.length : ℝ)))
      else 0).sum

/-- `IntelligentSolver::calculate_statistical_score` (wrdl_helper.rs
lines 255–270). -/
noncomputable def calculate_statistical_score (candidate : Word) (remaining : List Word) : ℝ :=
  if remaining.length = 0 then 0
  else
    (candidate.map fun ch =>
      ((remaining.filter fun w => w.contains ch).length : ℝ) / (remaining.length : ℝ)).sum

/-- `IntelligentSolver::get_candidate_words` (wrdl_helper.rs lines
303–339): remaining words first, then the configured strategic list with
duplicates skipped, truncated to `candidate_cap as usize`. -/
def get_candidate_words (cfg : SolverConfig) (remaining_words : List Word) : List Word :=
  let strategic := if cfg.include_killer_words then get_killer_words else get_top_strategic_words
  let candidates := strategic.foldl
    (fun acc w => if acc.contains w then acc else acc ++ [w]) remaining_words
  let cap := usizeCast cfg.candidate_cap
  if candidates.length > cap then candidates.take cap else candidates

/-- The combined score of one candidate in the scoring loop of
`IntelligentSolver::get_best_guess` (wrdl_helper.rs lines 182–195):
entropy at weight 1.0, statistical score at weight 0.0, plus the 0.1
prime-suspect bonus. -/
noncomputable def combinedScore (remaining : List Word) (candidate : Word) : ℝ :=
  calculate_entropy candidate remaining * 1.0 +
    calculate_statistical_score candidate remaining * 0.0 +
    (if remaining.contains candidate then (0.1 : ℝ) else 0.0)

/-- The test `combined_score > best_score` against the running best:
true against the initial `(None, f64::NEG_INFINITY)` state (every
computed score is a finite float). -/
def beatsBest (best : Option (Word × ℝ)) (score : ℝ) : Prop :=
  match best with
  | none => True
  | some p => p.2 < score

noncomputable instance (best : Option (Word × ℝ)) (score : ℝ) :
    Decidable (beatsBest best score) :=
  match best with
  | none => isTrue trivial
  | some p => inferInstanceAs (Decidable (p.2 < score))

/-- The scoring loop of `IntelligentSolver::get_best_guess`
(wrdl_helper.rs lines 173–215).  The running best
`(best_word, best_score)` starts as `(None, f64::NEG_INFINITY)`,
modelled as `none` (any computed score beats `NEG_INFINITY`).  The early
break uses the local hard-coded threshold `5.0`; a second break fires
after 100 candidates have been processed. -/
noncomputable def scoreLoop (remaining : List Word) :
    List Word → Option (Word × ℝ) → Nat → Option Word
  | [], best, _ => best.map Prod.fst
  | c :: rest, best, processed =>
      let e := calculate_entropy c remaining
      let score := combinedScore remaining c
      if beatsBest best score then
        if 5.0 ≤ e then some c
        else if 100 ≤ processed + 1 then some c
        else scoreLoop remaining rest (some (c, score)) (processed + 1)
      else
        if 100 ≤ processed + 1 then best.map Prod.fst
        else scoreLoop remaining rest best (processed + 1)

/-- `IntelligentSolver::get_best_guess` (wrdl_helper.rs lines 159–218).
The `cfg` argument stands for the global `SOLVER_CONFIG` read by
`get_candidate_words`; the scoring loop itself never consults it. -/
noncomputable def solver_get_best_guess (cfg : SolverConfig) (remaining_words : List Word)
    (_guess_results : List GuessResult) : Option Word :=
  if remaining_words.isEmpty then none
  else if remaining_words.length ≤ 2 then remaining_words.head?
  else
    let candidate_words := get_candidate_words cfg remaining_words
    scoreLoop remaining_words candidate_words none 0

/-- Modelled from the spec: §4.5 step 4 of the specification describes
the early-termination shortcut as governed by the configuration —
"If `config.early_termination_enabled` and the current candidate's
`e ≥ config.early_termination_threshold`, return that candidate
immediately after updating the best" — rather than by the hard-coded
local threshold the code uses.  This variant differs from `scoreLoop`
only in that break condition; claim C4 is the assertion that the code
behaves like this variant. -/
noncomputable def scoreLoopSpec (cfg : SolverConfig) (remaining : List Word) :
    List Word → Option (Word × ℝ) → Nat → Option Word
  | [], best, _ => best.map Prod.fst
  | c :: rest, best, processed =>
      let e := calculate_entropy c remaining
      let score := combinedScore remaining c
      if beatsBest best score then
        if cfg.early_termination_enabled ∧ cfg.early_termination_threshold ≤ e then some c
        else if 100 ≤ processed + 1 then some c
        else scoreLoopSpec cfg remaining rest (some (c, score)) (processed + 1)
      else
        if 100 ≤ processed + 1 then best.map Prod.fst
        else scoreLoopSpec cfg remaining rest best (processed + 1)

/-- Modelled from the spec: the claimed configuration-driven selector,
i.e. `solver_get_best_guess` with `scoreLoopSpec` in place of
`scoreLoop`. -/
noncomputable def solver_get_best_guess_spec (cfg : SolverConfig) (remaining_words : List Word)
    (_guess_results : List GuessResult) : Option Word :=
  if remaining_words.isEmpty then none
  else if remaining_words.length ≤ 2 then remaining_words.head?
  else
    let candidate_words := get_candidate_words cfg remaining_words
    scoreLoopSpec cfg remaining_words candidate_words none 0

/-! ## FFI entry point (`simple.rs` lines 82–135)

`get_best_guess` receives the history as `(word, pattern-token)` pairs.
An empty history returns the cached optimal first guess.  Otherwise the
guess lexicon is filtered by the decoded history and handed to the
solver.  The global `WORD_MANAGER` and `SOLVER_CONFIG` are passed
explicitly. -/

/-- `get_best_guess` (simple.rs lines 82–135). -/
noncomputable def get_best_guess (wm : WordManager) (cfg : SolverConfig)
    (guess_results : List (Word × List String)) : Option Word :=
  if guess_results.isEmpty then wm.optimal_first_guess
  else
    let all_words := wm.guess_words
    let internal := guess_results.map fun r => decodeRecord r.1 r.2
    let eligible_words := filter_words_with_feedback all_words internal
    if eligible_words.isEmpty then none
    else solver_get_best_guess cfg eligible_words internal

/-- Modelled from the spec: the per-record consistency test exactly as
§4.3 of the specification (and claim C2) state it — every Green
position matches, no Yellow position is violated, every letter reaches
its minimum required count `min_req[L]`, and every letter with a Gray
occurrence is capped at `cap[L] = min_req[L]` (which is `0` for a
letter occurring only Gray).  Quantifying the count conditions over the
five letters of the guess covers all letters: any other letter has
`min_req = 0` and no cap. -/
def word_matches_single_feedback_claim (candidate : Word) (gr : GuessResult) : Bool :=
  ((List.range 5).all fun i =>
    if gr.results.getD i .Gray = .Green then
      candidate.getD i ' ' = gr.word.getD i ' '
    else true) &&
  ((List.range 5).all fun i =>
    if gr.results.getD i .Gray = .Yellow then
      candidate.getD i ' ' ≠ gr.word.getD i ' '
    else true) &&
  ((List.range 5).all fun i =>
    requiredCount gr (gr.word.getD i ' ') ≤ countChar candidate (gr.word.getD i ' ')) &&
  ((List.range 5).all fun i =>
    if gr.results.getD i .Gray = .Gray then
      countChar candidate (gr.word.getD i ' ') ≤ requiredCount gr (gr.word.getD i ' ')
    else true)

/-- Example lexicon used to refute the selector-membership claim: the
word `SLATE` from the strategic list beats each of these four words on
entropy while not being a member of the lexicon. -/
def exampleLexicon : List Word :=
  ["AAAAA".toList, "AAAAL".toList, "TTTTT".toList, "TTTTE".toList]

/-- Example remaining set used to refute the early-termination claim:
the first word has entropy 1.5, the second has entropy 2. -/
def exampleRemaining : List Word :=
  ["AAAAA".toList, "AABBB".toList, "BBBAA".toList, "CCCAA".toList]

/-! ## Infrastructure: `position` -/

theorem position_eq_none {p : Char → Bool} {l : List Char} :
    position p l = none ↔ ∀ c ∈ l, ¬ p c := by
  induction l with
  | nil => simp [position]
  | cons c rest ih =>
      by_cases h : p c
      · simp [position, h]
      · simp [position, h, ih]

theorem position_eq_some {p : Char → Bool} {l : List Char} {k : Nat}
    (h : position p l = some k) : ∃ c, l[k]? = some c ∧ p c = true := by
  induction l generalizing k with
  | nil => simp [position] at h
  | cons c rest ih =>
      simp only [position] at h
      by_cases hp : p c
      · rw [if_pos hp] at h
        obtain rfl : (0 : Nat) = k := Option.some.inj h
        exact ⟨c, by simp, hp⟩
      · rw [if_neg hp, Option.map_eq_some'] at h
        obtain ⟨k', hk', rfl⟩ := h
        obtain ⟨c', hc', hpc⟩ := ih hk'
        exact ⟨c', by simpa using hc', hpc⟩

/-! ## Infrastructure: unfolding equations for the passes -/

theorem pass1_nil (g : Word) (res buf : List Char) :
    pass1 g [] res buf = some (res, buf) := rfl

theorem pass1_cons (g : Word) (i : Nat) (rest : List Nat) (res buf : List Char) :
    pass1 g (i :: rest) res buf =
      g[i]?.bind fun gc => buf[i]?.bind fun tc =>
        if gc = tc then pass1 g rest (res.set i 'G') (buf.set i ' ')
        else pass1 g rest res buf := rfl

theorem pass2_nil (g : Word) (res buf : List Char) :
    pass2 g [] res buf = some (res, buf) := rfl

theorem pass2_cons (g : Word) (i : Nat) (rest : List Nat) (res buf : List Char) :
    pass2 g (i :: rest) res buf =
      g[i]?.bind fun gc =>
        if res.getD i ' ' = 'X' then
          match position (fun c => c = gc) buf with
          | some pos => pass2 g rest (res.set i 'Y') (buf.set pos ' ')
          | none => pass2 g rest res buf
        else pass2 g rest res buf := rfl

/-! ## Infrastructure: shape lemmas for the passes -/

theorem pass1_length {g : Word} {idxs : List Nat} {res buf res' buf' : List Char}
    (h : pass1 g idxs res buf = some (res', buf')) :
    res'.length = res.length ∧ buf'.length = buf.length := by
  induction idxs generalizing res buf with
  | nil =>
      obtain ⟨rfl, rfl⟩ := Prod.mk.injEq .. ▸ Option.some.inj h
      exact ⟨rfl, rfl⟩
  | cons i rest ih =>
      rw [pass1_cons] at h
      cases hgc : g[i]? with
      | none => rw [hgc] at h; simp at h
      | some gc =>
      cases htc : buf[i]? with
      | none => rw [hgc, htc] at h; simp at h
      | some tc =>
      rw [hgc, htc, Option.some_bind, Option.some_bind] at h
      by_cases heq : gc = tc
      · rw [if_pos heq] at h
        have := ih h
        simpa using this
      · rw [if_neg heq] at h
        exact ih h

theorem pass1_untouched {g : Word} {idxs : List Nat} {res buf res' buf' : List Char}
    (h : pass1 g idxs res buf = some (res', buf')) {j : Nat} (hj : j ∉ idxs) :
    res'[j]? = res[j]? ∧ buf'[j]? = buf[j]? := by
  induction idxs generalizing res buf with
  | nil =>
      obtain ⟨rfl, rfl⟩ := Prod.mk.injEq .. ▸ Option.some.inj h
      exact ⟨rfl, rfl⟩
  | cons i rest ih =>
      have hij : i ≠ j := fun hij => hj (hij ▸ List.mem_cons_self i rest)
      have hjrest : j ∉ rest := fun hmem => hj (List.mem_cons_of_mem i hmem)
      rw [pass1_cons] at h
      cases hgc : g[i]? with
      | none => rw [hgc] at h; simp at h
      | some gc =>
      cases htc : buf[i]? with
      | none => rw [hgc, htc] at h; simp at h
      | some tc =>
      rw [hgc, htc, Option.some_bind, Option.some_bind] at h
      by_cases heq : gc = tc
      · rw [if_pos heq] at h
        have := ih h hjrest
        rwa [List.getElem?_set_ne hij, List.getElem?_set_ne hij] at this
      · rw [if_neg heq] at h
        exact ih h hjrest

theorem pass1_mem {g : Word} {idxs : List Nat} {res buf res' buf' : List Char}
    (h : pass1 g idxs res buf = some (res', buf')) :
    ∀ c ∈ res', c ∈ res ∨ c = 'G' := by
  induction idxs generalizing res buf with
  | nil =>
      obtain ⟨rfl, rfl⟩ := Prod.mk.injEq .. ▸ Option.some.inj h
      exact fun c hc => Or.inl hc
  | cons i rest ih =>
      rw [pass1_cons] at h
      cases hgc : g[i]? with
      | none => rw [hgc] at h; simp at h
      | some gc =>
      cases htc : buf[i]? with
      | none => rw [hgc, htc] at h; simp at h
      | some tc =>
      rw [hgc, htc, Option.some_bind, Option.some_bind] at h
      by_cases heq : gc = tc
      · rw [if_pos heq] at h
        intro c hc
        rcases ih h c hc with hmem | hG
        · rcases List.mem_or_eq_of_mem_set hmem with hmem' | rfl
          · exact Or.inl hmem'
          · exact Or.inr rfl
        · exact Or.inr hG
      · rw [if_neg heq] at h
        exact ih h

theorem pass2_length {g : Word} {idxs : List Nat} {res buf res' buf' : List Char}
    (h : pass2 g idxs res buf = some (res', buf')) :
    res'.length = res.length ∧ buf'.length = buf.length := by
  induction idxs generalizing res buf with
  | nil =>
      obtain ⟨rfl, rfl⟩ := Prod.mk.injEq .. ▸ Option.some.inj h
      exact ⟨rfl, rfl⟩
  | cons i rest ih =>
      rw [pass2_cons] at h
      cases hgc : g[i]? with
      | none => rw [hgc] at h; simp at h
      | some gc =>
      rw [hgc, Option.some_bind] at h
      by_cases hx : res.getD i ' ' = 'X'
      · rw [if_pos hx] at h
        cases hpos : position (fun c => c = gc) buf with
        | none => rw [hpos] at h; exact ih h
        | some pos =>
            rw [hpos] at h
            have := ih h
            simpa using this
      · rw [if_neg hx] at h
        exact ih h

theorem pass2_mem {g : Word} {idxs : List Nat} {res buf res' buf' : List Char}
    (h : pass2 g idxs res buf = some (res', buf')) :
    ∀ c ∈ res', c ∈ res ∨ c = 'Y' := by
  induction idxs generalizing res buf with
  | nil =>
      obtain ⟨rfl, rfl⟩ := Prod.mk.injEq .. ▸ Option.some.inj h
      exact fun c hc => Or.inl hc
  | cons i rest ih =>
      rw [pass2_cons] at h
      cases hgc : g[i]? with
      | none => rw [hgc] at h; simp at h
      | some gc =>
      rw [hgc, Option.some_bind] at h
      by_cases hx : res.getD i ' ' = 'X'
      · rw [if_pos hx] at h
        cases hpos : position (fun c => c = gc) buf with
        | none => rw [hpos] at h; exact ih h
        | some pos =>
            rw [hpos] at h
            intro c hc
            rcases ih h c hc with hmem | hY
            · rcases List.mem_or_eq_of_mem_set hmem with hmem' | rfl
              · exact Or.inl hmem'
              · exact Or.inr rfl
            · exact Or.inr hY
      · rw [if_neg hx] at h
        exact ih h

/-- On an index set without duplicates, the first pass marks position
`i` green exactly when `guess[i]` equals the buffer cell `buf[i]` it
sees (for a position still unset on entry). -/
theorem pass1_green {g : Word} {idxs : List Nat} {res buf res' buf' : List Char}
    (h : pass1 g idxs res buf = some (res', buf')) (hnd : idxs.Nodup)
    {i : Nat} (hi : i ∈ idxs) (hx : res.getD i ' ' = 'X') :
    (res'.getD i ' ' = 'G' ↔ g[i]? = buf[i]?) := by
  induction idxs generalizing res buf with
  | nil => cases hi
  | cons j rest ih =>
      have hjrest : j ∉ rest := (List.nodup_cons.mp hnd).1
      have hndrest : rest.Nodup := (List.nodup_cons.mp hnd).2
      rw [pass1_cons] at h
      cases hgc : g[j]? with
      | none => rw [hgc] at h; simp at h
      | some gc =>
      cases htc : buf[j]? with
      | none => rw [hgc, htc] at h; simp at h
      | some tc =>
      rw [hgc, htc, Option.some_bind, Option.some_bind] at h
      rcases List.mem_cons.mp hi with rfl | hirest
      · -- the head index is the one we look at
        have hilen : i < res.length := by
          by_contra hge
          push_neg at hge
          rw [List.getD_eq_getElem?_getD, List.getElem?_eq_none hge] at hx
          exact absurd hx (by decide)
        by_cases heq : gc = tc
        · rw [if_pos heq] at h
          have huntouched := (pass1_untouched h hjrest).1
          have hres' : res'.getD i ' ' = 'G' := by
            rw [List.getD_eq_getElem?_getD, huntouched,
              List.getElem?_set_eq_of_lt _ hilen]
            rfl
          subst heq
          refine ⟨fun _ => ?_, fun _ => hres'⟩
          rw [hgc, htc]
        · rw [if_neg heq] at h
          have huntouched := (pass1_untouched h hjrest).1
          have hres' : res'.getD i ' ' = 'X' := by
            rw [List.getD_eq_getElem?_getD, huntouched, ← List.getD_eq_getElem?_getD]
            exact hx
          rw [hres', hgc, htc]
          constructor
          · intro hcontr; exact absurd hcontr (by decide)
          · intro hsome; exact absurd (Option.some.inj hsome) heq
      · -- the index sits deeper in the list
        have hji : j ≠ i := fun hji => hjrest (hji ▸ hirest)
        by_cases heq : gc = tc
        · rw [if_pos heq] at h
          have hxi : (res.set j 'G').getD i ' ' = 'X' := by
            rw [List.getD_eq_getElem?_getD, List.getElem?_set_ne hji,
              ← List.getD_eq_getElem?_getD]
            exact hx
          have := ih h hndrest hirest hxi
          rwa [List.getElem?_set_ne hji] at this
        · rw [if_neg heq] at h
          exact ih h hndrest hirest hx

/-- The second pass only turns `'X'` cells into `'Y'`; every other cell
is left as it was. -/
theorem pass2_preserve {g : Word} {idxs : List Nat} {res buf res' buf' : List Char}
    (h : pass2 g idxs res buf = some (res', buf')) (i : Nat) :
    res'.getD i ' ' = res.getD i ' ' ∨
      (res.getD i ' ' = 'X' ∧ res'.getD i ' ' = 'Y') := by
  induction idxs generalizing res buf with
  | nil =>
      obtain ⟨rfl, rfl⟩ := Prod.mk.injEq .. ▸ Option.some.inj h
      exact Or.inl rfl
  | cons j rest ih =>
      rw [pass2_cons] at h
      cases hgc : g[j]? with
      | none => rw [hgc] at h; simp at h
      | some gc =>
      rw [hgc, Option.some_bind] at h
      by_cases hx : res.getD j ' ' = 'X'
      · rw [if_pos hx] at h
        cases hpos : position (fun c => c = gc) buf with
        | none => rw [hpos] at h; exact ih h
        | some pos =>
            rw [hpos] at h
            have hjlen : j < res.length := by
              by_contra hge
              push_neg at hge
              rw [List.getD_eq_getElem?_getD, List.getElem?_eq_none hge] at hx
              exact absurd hx (by decide)
            by_cases hji : j = i
            · subst hji
              have hset : (res.set j 'Y').getD j ' ' = 'Y' := by
                rw [List.getD_eq_getElem?_getD, List.getElem?_set_eq_of_lt _ hjlen]
                rfl
              rcases ih h with h1 | h2
              · exact Or.inr ⟨hx, h1.trans hset⟩
              · rw [hset] at h2
                exact absurd h2.1 (by decide)
            · have hset : (res.set j 'Y').getD i ' ' = res.getD i ' ' := by
                rw [List.getD_eq_getElem?_getD, List.getElem?_set_ne hji,
                  ← List.getD_eq_getElem?_getD]
              rcases ih h with h1 | h2
              · exact Or.inl (h1.trans hset)
              · rw [hset] at h2
                exact Or.inr h2
      · rw [if_neg hx] at h
        exact ih h

/-- The first pass succeeds when every visited index is in bounds for
the guess and the buffer. -/
theorem pass1_isSome {g : Word} {idxs : List Nat} (res buf : List Char)
    (hb : ∀ i ∈ idxs, i < g.length ∧ i < buf.length) :
    ∃ res' buf', pass1 g idxs res buf = some (res', buf') := by
  induction idxs generalizing res buf with
  | nil => exact ⟨res, buf, rfl⟩
  | cons i rest ih =>
      obtain ⟨hgi, hbi⟩ := hb i (List.mem_cons_self i rest)
      have hrest : ∀ j ∈ rest, j < g.length ∧ j < (buf.set i ' ').length := by
        intro j hj
        have := hb j (List.mem_cons_of_mem i hj)
        simpa using this
      have hrest' : ∀ j ∈ rest, j < g.length ∧ j < buf.length := fun j hj =>
        hb j (List.mem_cons_of_mem i hj)
      rw [pass1_cons, List.getElem?_eq_getElem hgi, List.getElem?_eq_getElem hbi,
        Option.some_bind, Option.some_bind]
      by_cases heq : g[i] = buf[i]
      · rw [if_pos heq]
        exact ih _ _ hrest
      · rw [if_neg heq]
        exact ih _ _ hrest'

/-- The second pass succeeds when every visited index is in bounds for
the guess. -/
theorem pass2_isSome {g : Word} {idxs : List Nat} (res buf : List Char)
    (hb : ∀ i ∈ idxs, i < g.length) :
    ∃ res' buf', pass2 g idxs res buf = some (res', buf') := by
  induction idxs generalizing res buf with
  | nil => exact ⟨res, buf, rfl⟩
  | cons i rest ih =>
      have hgi := hb i (List.mem_cons_self i rest)
      have hrest : ∀ j ∈ rest, j < g.length := fun j hj =>
        hb j (List.mem_cons_of_mem i hj)
      rw [pass2_cons, List.getElem?_eq_getElem hgi, Option.some_bind]
      by_cases hx : res.getD i ' ' = 'X'
      · rw [if_pos hx]
        cases hpos : position (fun c => c = g[i]) buf with
        | none => exact ih _ _ hrest
        | some pos => exact ih _ _ hrest
      · rw [if_neg hx]
        exact ih _ _ hrest

/-- The first pass reaches the out-of-bounds panic as soon as some
visited index falls outside the guess or the buffer. -/
theorem pass1_eq_none {g : Word} {idxs : List Nat} {res buf : List Char}
    {i : Nat} (hi : i ∈ idxs) (hout : g.length ≤ i ∨ buf.length ≤ i) :
    pass1 g idxs res buf = none := by
  induction idxs generalizing res buf with
  | nil => cases hi
  | cons j rest ih =>
      rw [pass1_cons]
      cases hgc : g[j]? with
      | none => simp
      | some gc =>
      cases htc : buf[j]? with
      | none => simp
      | some tc =>
      rw [Option.some_bind, Option.some_bind]
      have hji : j ≠ i := by
        rintro rfl
        rcases hout with hout | hout
        · rw [List.getElem?_eq_none hout] at hgc; cases hgc
        · rw [List.getElem?_eq_none hout] at htc; cases htc
      have hirest : i ∈ rest := (List.mem_cons.mp hi).resolve_left fun hin => hji hin.symm
      by_cases heq : gc = tc
      · rw [if_pos heq]
        exact ih hirest (by simpa using hout)
      · rw [if_neg heq]
        exact ih hirest hout

/-- The second pass reaches the out-of-bounds panic as soon as some
visited index falls outside the guess. -/
theorem pass2_eq_none {g : Word} {idxs : List Nat} {res buf : List Char}
    {i : Nat} (hi : i ∈ idxs) (hout : g.length ≤ i) :
    pass2 g idxs res buf = none := by
  induction idxs generalizing res buf with
  | nil => cases hi
  | cons j rest ih =>
      rw [pass2_cons]
      cases hgc : g[j]? with
      | none => simp
      | some gc =>
      rw [Option.some_bind]
      have hji : j ≠ i := by
        rintro rfl
        rw [List.getElem?_eq_none hout] at hgc; cases hgc
      have hirest : i ∈ rest := (List.mem_cons.mp hi).resolve_left fun hin => hji hin.symm
      by_cases hx : res.getD j ' ' = 'X'
      · rw [if_pos hx]
        cases hpos : position (fun c => c = gc) buf with
        | none => exact ih hirest
        | some pos => exact ih hirest
      · rw [if_neg hx]
        exact ih hirest

/-! ## Infrastructure: the simulator as a whole -/

theorem simulate_guess_pattern_eq (g t : Word) :
    simulate_guess_pattern g t =
      (pass1 g (List.range 5) (List.replicate 5 'X') t).bind fun p =>
        (pass2 g (List.range 5) p.1 p.2).bind fun q => some q.1 := rfl

/-- On five-letter inputs the simulator succeeds and produces five
markers drawn from `G`/`Y`/`X`. -/
theorem simulate_some_of_length {g t : Word} (hg : g.length = 5) (ht : t.length = 5) :
    ∃ pat, simulate_guess_pattern g t = some pat ∧ pat.length = 5 ∧
      ∀ c ∈ pat, c = 'G' ∨ c = 'Y' ∨ c = 'X' := by
  obtain ⟨res1, buf1, h1⟩ := @pass1_isSome g (List.range 5)
    (List.replicate 5 'X') t
    (fun i hi => by
      have := List.mem_range.mp hi
      omega)
  obtain ⟨res2, buf2, h2⟩ := @pass2_isSome g (List.range 5) res1 buf1
    (fun i hi => by
      have := List.mem_range.mp hi
      omega)
  refine ⟨res2, ?_, ?_, ?_⟩
  · rw [simulate_guess_pattern_eq, h1, Option.some_bind, h2, Option.some_bind]
  · have hl1 := (pass1_length h1).1
    have hl2 := (pass2_length h2).1
    simp only [List.length_replicate] at hl1
    omega
  · intro c hc
    rcases pass2_mem h2 c hc with hc1 | hY
    · rcases pass1_mem h1 c hc1 with hc0 | hG
      · exact Or.inr (Or.inr (List.mem_replicate.mp hc0).2)
      · exact Or.inl hG
    · exact Or.inr (Or.inl hY)

/-- On an input shorter than five characters the simulator reaches the
out-of-bounds panic. -/
theorem simulate_eq_none_of_short {g t : Word} (h : g.length < 5 ∨ t.length < 5) :
    simulate_guess_pattern g t = none := by
  rcases h with h | h
  · rw [simulate_guess_pattern_eq,
      pass1_eq_none (List.mem_range.mpr h) (Or.inl le_rfl)]
    rfl
  · rw [simulate_guess_pattern_eq,
      pass1_eq_none (List.mem_range.mpr h) (Or.inr le_rfl)]
    rfl

/-- Whenever the simulator succeeds, position `i < 5` of the pattern is
green exactly when the two words agree at `i`. -/
theorem simulate_green_iff {g t : Word} {pat : List Char}
    (h : simulate_guess_pattern g t = some pat) {i : Nat} (hi : i < 5) :
    (pat.getD i ' ' = 'G' ↔ g[i]? = t[i]?) := by
  rw [simulate_guess_pattern_eq] at h
  cases h1 : pass1 g (List.range 5) (List.replicate 5 'X') t with
  | none => rw [h1] at h; simp at h
  | some p1 =>
  obtain ⟨res1, buf1⟩ := p1
  rw [h1, Option.some_bind] at h
  cases h2 : pass2 g (List.range 5) res1 buf1 with
  | none => rw [h2] at h; simp at h
  | some p2 =>
  obtain ⟨res2, buf2⟩ := p2
  rw [h2, Option.some_bind] at h
  obtain rfl : res2 = pat := Option.some.inj h
  have hxinit : (List.replicate 5 'X').getD i ' ' = 'X' := by
    rw [List.getD_eq_getElem?_getD, List.getElem?_replicate, if_pos hi]
    rfl
  have hgreen1 := pass1_green h1 (List.nodup_range 5) (List.mem_range.mpr hi) hxinit
  rcases pass2_preserve h2 i with hsame | ⟨hX, hY⟩
  · rw [hsame]
    exact hgreen1
  · rw [hY]
    rw [hX] at hgreen1
    constructor
    · intro hcontr; exact absurd hcontr (by decide)
    · intro heq
      exact absurd (hgreen1.mpr heq) (by decide)

theorem getElem?_eq_some_getD {α : Type} {l : List α} {i : Nat} (h : i < l.length) (d : α) :
    l[i]? = some (l.getD i d) := by
  rw [List.getElem?_eq_getElem h, List.getD_eq_getElem?_getD, List.getElem?_eq_getElem h]
  rfl

/-! ## Claim C8 -/

/-- Claim C8: for all five-letter words `a` and `b` and every position
`i` in 0..4, the simulated pattern has a Green marker at position `i`
if and only if `a[i] = b[i]`; in particular `simulate(w, w)` yields
five Greens for every five-letter `w`. -/
theorem C8_simulator_greens :
    (∀ a b : Word, a.length = 5 → b.length = 5 →
      ∃ pat, simulate_guess_pattern a b = some pat ∧
        ∀ i, i < 5 → (pat.getD i ' ' = 'G' ↔ a.getD i ' ' = b.getD i ' ')) ∧
    (∀ w : Word, w.length = 5 →
      simulate_guess_pattern w w = some (List.replicate 5 'G')) := by
  have main : ∀ a b : Word, a.length = 5 → b.length = 5 →
      ∃ pat, simulate_guess_pattern a b = some pat ∧ pat.length = 5 ∧
        ∀ i, i < 5 → (pat.getD i ' ' = 'G' ↔ a.getD i ' ' = b.getD i ' ') := by
    intro a b ha hb
    obtain ⟨pat, hpat, hlen, -⟩ := simulate_some_of_length ha hb
    refine ⟨pat, hpat, hlen, fun i hi => ?_⟩
    have hia : i < a.length := ha ▸ hi
    have hib : i < b.length := hb ▸ hi
    rw [simulate_green_iff hpat hi, getElem?_eq_some_getD hia ' ',
      getElem?_eq_some_getD hib ' ']
    exact ⟨fun h => Option.some.inj h, fun h => h ▸ rfl⟩
  constructor
  · intro a b ha hb
    obtain ⟨pat, hpat, -, hiff⟩ := main a b ha hb
    exact ⟨pat, hpat, hiff⟩
  · intro w hw
    obtain ⟨pat, hpat, hlen, hiff⟩ := main w w hw hw
    have hpatG : ∀ i, i < 5 → pat.getD i ' ' = 'G' := fun i hi =>
      (hiff i hi).mpr rfl
    have : pat = List.replicate 5 'G' := by
      apply List.ext_getElem?
      intro n
      by_cases hn : n < 5
      · rw [getElem?_eq_some_getD (hlen ▸ hn) ' ', hpatG n hn,
          List.getElem?_replicate, if_pos hn]
      · rw [List.getElem?_eq_none (by omega : pat.length ≤ n),
          List.getElem?_replicate, if_neg hn]
    rw [← this]
    exact hpat

/-- Witness for C8 at the concrete words of the specification's
boundary scenarios. -/
theorem C8_simulator_greens_witness :
    (∃ pat, simulate_guess_pattern "CRANE".toList "CRATE".toList = some pat ∧
      ∀ i, i < 5 →
        (pat.getD i ' ' = 'G' ↔ "CRANE".toList.getD i ' ' = "CRATE".toList.getD i ' ')) ∧
    simulate_guess_pattern "SLATE".toList "SLATE".toList = some (List.replicate 5 'G') :=
  ⟨C8_simulator_greens.1 "CRANE".toList "CRATE".toList (by decide) (by decide),
   C8_simulator_greens.2 "SLATE".toList (by decide)⟩

/-! ## Claim C10 -/

/-- Claim C10: for five-character inputs `simulate_guess_pattern` is
total and returns exactly five characters, each one of `G`, `Y`, `X`;
for any input shorter than five characters the out-of-bounds (panic)
branch is reached — modelled as the `none` result. -/
theorem C10_simulator_totality :
    (∀ g t : Word, g.length = 5 → t.length = 5 →
      ∃ pat, simulate_guess_pattern g t = some pat ∧ pat.length = 5 ∧
        ∀ c ∈ pat, c = 'G' ∨ c = 'Y' ∨ c = 'X') ∧
    (∀ g t : Word, g.length < 5 ∨ t.length < 5 →
      simulate_guess_pattern g t = none) :=
  ⟨fun _ _ hg ht => simulate_some_of_length hg ht,
   fun _ _ h => simulate_eq_none_of_short h⟩

/-- Witness for C10: a successful five-letter run and a panicking
four-letter run. -/
theorem C10_simulator_totality_witness :
    (∃ pat, simulate_guess_pattern "TARES".toList "CRANE".toList = some pat ∧
      pat.length = 5 ∧ ∀ c ∈ pat, c = 'G' ∨ c = 'Y' ∨ c = 'X') ∧
    simulate_guess_pattern "CRAN".toList "CRANE".toList = none :=
  ⟨C10_simulator_totality.1 "TARES".toList "CRANE".toList (by decide) (by decide),
   C10_simulator_totality.2 "CRAN".toList "CRANE".toList (Or.inl (by decide))⟩

/-! ## Claim C9 -/

/-- Claim C9: matching against the concatenated history `h1 ++ h2` is
the conjunction of matching against `h1` and against `h2`; consequently
filtering a universe by a history is order-insensitive
(`filter(U, h1 ++ h2) = filter(filter(U, h1), h2) = filter(U, h2 ++ h1)`)
and idempotent (`filter(filter(U, h), h) = filter(U, h)`). -/
theorem C9_filter_conjunction :
    (∀ (c : Word) (h1 h2 : List GuessResult),
      word_matches_all_feedback c (h1 ++ h2) =
        (word_matches_all_feedback c h1 && word_matches_all_feedback c h2)) ∧
    (∀ (U : List Word) (h1 h2 : List GuessResult),
      filter_words_with_feedback U (h1 ++ h2) =
        filter_words_with_feedback (filter_words_with_feedback U h1) h2 ∧
      filter_words_with_feedback U (h1 ++ h2) =
        filter_words_with_feedback U (h2 ++ h1)) ∧
    (∀ (U : List Word) (h : List GuessResult),
      filter_words_with_feedback (filter_words_with_feedback U h) h =
        filter_words_with_feedback U h) := by
  have hconj : ∀ (c : Word) (h1 h2 : List GuessResult),
      word_matches_all_feedback c (h1 ++ h2) =
        (word_matches_all_feedback c h1 && word_matches_all_feedback c h2) := by
    intro c h1 h2
    exact List.all_append
  refine ⟨hconj, fun U h1 h2 => ⟨?_, ?_⟩, fun U h => ?_⟩
  · simp only [filter_words_with_feedback, List.filter_filter]
    apply List.filter_congr
    intro w _
    rw [hconj, Bool.and_comm]
  · simp only [filter_words_with_feedback]
    apply List.filter_congr
    intro w _
    rw [hconj, hconj, Bool.and_comm]
  · simp only [filter_words_with_feedback, List.filter_filter]
    apply List.filter_congr
    intro w _
    rw [Bool.and_self]

/-! ## Claim C2 -/

/-- Counterexample for C2.  Against the record
`(EEABC, Green Yellow Gray Gray Gray)` the letter `E` has
`min_req[E] = 2` (one Green, one Yellow), yet the candidate `EDDDD`
containing a single `E` is accepted by `word_matches_single_feedback`:
the code checks only that each Yellow letter occurs *somewhere*, never
the per-letter minimum count, so the claimed "count ≥ min_req" clause
of the acceptance condition is refuted. -/
theorem C2_matcher_cex :
    word_matches_single_feedback "EDDDD".toList
        ⟨"EEABC".toList, [.Green, .Yellow, .Gray, .Gray, .Gray]⟩ = true ∧
    requiredCount ⟨"EEABC".toList, [.Green, .Yellow, .Gray, .Gray, .Gray]⟩ 'E' = 2 ∧
    countChar "EDDDD".toList 'E' = 1 ∧
    word_matches_single_feedback_claim "EDDDD".toList
        ⟨"EEABC".toList, [.Green, .Yellow, .Gray, .Gray, .Gray]⟩ = false := by
  refine ⟨by decide, by decide, by decide, by decide⟩

/-- Logical characterization of `word_matches_single_feedback`: the
four Boolean scans spelled out as propositions. -/
theorem word_matches_single_feedback_iff (c : Word) (gr : GuessResult) :
    word_matches_single_feedback c gr = true ↔
      ((∀ i, i < 5 → gr.results.getD i .Gray = .Green →
          c.getD i ' ' = gr.word.getD i ' ') ∧
       (∀ i, i < 5 → gr.results.getD i .Gray = .Yellow →
          c.getD i ' ' ≠ gr.word.getD i ' ' ∧ gr.word.getD i ' ' ∈ c) ∧
       (∀ i, i < 5 → gr.results.getD i .Gray = .Gray →
          countChar c (gr.word.getD i ' ') ≤ requiredCount gr (gr.word.getD i ' '))) := by
  simp only [word_matches_single_feedback, Bool.and_eq_true, List.all_eq_true,
    List.mem_range]
  constructor
  · rintro ⟨⟨hg, hy⟩, hx⟩
    refine ⟨fun i hi hG => ?_, fun i hi hY => ?_, fun i hi hX => ?_⟩
    · have := hg i hi
      rw [if_pos hG] at this
      exact of_decide_eq_true this
    · have := hy i hi
      rw [if_pos hY] at this
      rcases Bool.and_eq_true .. ▸ this with ⟨h1, h2⟩
      refine ⟨of_decide_eq_true h1, ?_⟩
      simpa using h2
    · have := hx i hi
      rw [if_pos hX] at this
      exact of_decide_eq_true this
  · rintro ⟨hg, hy, hx⟩
    refine ⟨⟨fun i hi => ?_, fun i hi => ?_⟩, fun i hi => ?_⟩
    · by_cases hG : gr.results.getD i .Gray = .Green
      · rw [if_pos hG]
        exact decide_eq_true (hg i hi hG)
      · rw [if_neg hG]
    · by_cases hY : gr.results.getD i .Gray = .Yellow
      · rw [if_pos hY]
        obtain ⟨h1, h2⟩ := hy i hi hY
        refine Bool.and_eq_true .. ▸ ⟨decide_eq_true h1, ?_⟩
        simpa using h2
      · rw [if_neg hY]
    · by_cases hX : gr.results.getD i .Gray = .Gray
      · rw [if_pos hX]
        exact decide_eq_true (hx i hi hX)
      · rw [if_neg hX]

/-- Claim C2, amended: the per-record test accepts `c` against `(g, p)`
iff every Green position of `p` has `c` equal to `g` there; every
Yellow position `i` has `c[i] ≠ g[i]` *and* the letter `g[i]` occurring
somewhere in `c`; and for every letter at a Gray position, the count of
that letter in `c` is at most the number of Green/Yellow positions of
`g` carrying it (`0` for a letter occurring only Gray).  The claimed
global minimum-count requirement `count_of(L in c) ≥ min_req[L]` is not
part of the test: a letter with several Yellow positions only needs one
occurrence. -/
theorem C2_matcher_characterization (c : Word) (gr : GuessResult) :
    word_matches_single_feedback c gr = true ↔
      ((∀ i, i < 5 → gr.results.getD i .Gray = .Green →
          c.getD i ' ' = gr.word.getD i ' ') ∧
       (∀ i, i < 5 → gr.results.getD i .Gray = .Yellow →
          c.getD i ' ' ≠ gr.word.getD i ' ' ∧ gr.word.getD i ' ' ∈ c) ∧
       (∀ i, i < 5 → gr.results.getD i .Gray = .Gray →
          countChar c (gr.word.getD i ' ') ≤ requiredCount gr (gr.word.getD i ' '))) :=
  word_matches_single_feedback_iff c gr

/-! ## Claim C1: counting invariants of the simulator

The completeness half of the amended C1 needs to track, per letter, how
many buffer cells each pass consumes. -/

theorem countChar_set {buf : List Char} {pos : Nat} {a : Char}
    (h : buf[pos]? = some a) {ch : Char} (hch : ch ≠ ' ') :
    countChar buf ch = countChar (buf.set pos ' ') ch + (if a = ch then 1 else 0) := by
  induction buf generalizing pos with
  | nil => simp at h
  | cons b rest ih =>
      cases pos with
      | zero =>
          obtain rfl : b = a := by simpa using h
          simp only [List.set_cons_zero, countChar, List.countP_cons]
          have hsp : ¬ ((' ' : Char) = ch) := fun hc => hch hc.symm
          simp only [decide_eq_true_eq, hsp, if_false]
          omega
      | succ p =>
          have h' : rest[p]? = some a := by simpa using h
          have := ih h'
          simp only [List.set_cons_succ, countChar, List.countP_cons] at this ⊢
          omega

theorem countChar_set_le {buf : List Char} {pos : Nat} {ch : Char} (hch : ch ≠ ' ') :
    countChar (buf.set pos ' ') ch ≤ countChar buf ch := by
  cases h : buf[pos]? with
  | none =>
      rw [List.set_eq_of_length_le]
      have := List.getElem?_eq_none_iff.mp h
      omega
  | some a =>
      rw [countChar_set h hch]
      omega

theorem countChar_eq_zero_of_not_mem {buf : List Char} {ch : Char}
    (h : ∀ c ∈ buf, ¬ c = ch) : countChar buf ch = 0 := by
  rw [countChar, List.countP_eq_zero]
  intro c hc
  simpa using h c hc

/-- The second pass writes the result vector only at its own index
list. -/
theorem pass2_untouched {g : Word} {idxs : List Nat} {res buf res' buf' : List Char}
    (h : pass2 g idxs res buf = some (res', buf')) {j : Nat} (hj : j ∉ idxs) :
    res'[j]? = res[j]? := by
  induction idxs generalizing res buf with
  | nil =>
      obtain ⟨rfl, rfl⟩ := Prod.mk.injEq .. ▸ Option.some.inj h
      rfl
  | cons i rest ih =>
      have hij : i ≠ j := fun hij => hj (hij ▸ List.mem_cons_self i rest)
      have hjrest : j ∉ rest := fun hmem => hj (List.mem_cons_of_mem i hmem)
      rw [pass2_cons] at h
      cases hgc : g[i]? with
      | none => rw [hgc] at h; simp at h
      | some gc =>
      rw [hgc, Option.some_bind] at h
      by_cases hx : res.getD i ' ' = 'X'
      · rw [if_pos hx] at h
        cases hpos : position (fun c => c = gc) buf with
        | none => rw [hpos] at h; exact ih h hjrest
        | some pos =>
            rw [hpos] at h
            have := ih h hjrest
            rwa [List.getElem?_set_ne hij] at this
      · rw [if_neg hx] at h
        exact ih h hjrest

/-- Buffer cells only ever hold their original `target` character or
the consumed-cell sentinel; the first pass preserves this. -/
theorem pass1_bufinv {g t : Word} {idxs : List Nat} {res buf res' buf' : List Char}
    (h : pass1 g idxs res buf = some (res', buf'))
    (hinv : ∀ j : Nat, buf[j]? = t[j]? ∨ buf[j]? = some ' ') :
    ∀ j : Nat, buf'[j]? = t[j]? ∨ buf'[j]? = some ' ' := by
  induction idxs generalizing res buf with
  | nil =>
      obtain ⟨rfl, rfl⟩ := Prod.mk.injEq .. ▸ Option.some.inj h
      exact hinv
  | cons i rest ih =>
      rw [pass1_cons] at h
      cases hgc : g[i]? with
      | none => rw [hgc] at h; simp at h
      | some gc =>
      cases htc : buf[i]? with
      | none => rw [hgc, htc] at h; simp at h
      | some tc =>
      rw [hgc, htc, Option.some_bind, Option.some_bind] at h
      by_cases heq : gc = tc
      · rw [if_pos heq] at h
        refine ih h fun j => ?_
        by_cases hij : i = j
        · subst hij
          have hlen : i < buf.length := by
            by_contra hge
            push_neg at hge
            rw [List.getElem?_eq_none hge] at htc
            cases htc
          exact Or.inr (List.getElem?_set_eq_of_lt _ hlen)
        · rw [List.getElem?_set_ne hij]
          exact hinv j
      · rw [if_neg heq] at h
        exact ih h hinv

/-- A yellow mark set by the second pass certifies that the guessed
letter occurs in the original target. -/
theorem pass2_yellow_mem {g t : Word} {idxs : List Nat} {res buf res' buf' : List Char}
    (h : pass2 g idxs res buf = some (res', buf')) (hnd : idxs.Nodup)
    (hinv : ∀ j : Nat, buf[j]? = t[j]? ∨ buf[j]? = some ' ')
    {i : Nat} (hi : i ∈ idxs) (hx : res.getD i ' ' = 'X')
    (hy : res'.getD i ' ' = 'Y') (hsp : g.getD i ' ' ≠ ' ') :
    g.getD i ' ' ∈ t := by
  induction idxs generalizing res buf with
  | nil => cases hi
  | cons j rest ih =>
      have hjrest : j ∉ rest := (List.nodup_cons.mp hnd).1
      have hndrest : rest.Nodup := (List.nodup_cons.mp hnd).2
      rw [pass2_cons] at h
      cases hgc : g[j]? with
      | none => rw [hgc] at h; simp at h
      | some gc =>
      rw [hgc, Option.some_bind] at h
      rcases List.mem_cons.mp hi with rfl | hirest
      · -- this is the turn of index i itself
        rw [if_pos hx] at h
        have hgD : g.getD i ' ' = gc := by
          rw [List.getD_eq_getElem?_getD, hgc]
          rfl
        cases hpos : position (fun c => c = gc) buf with
        | none =>
            rw [hpos] at h
            have := pass2_untouched h hjrest
            rw [List.getD_eq_getElem?_getD, this, ← List.getD_eq_getElem?_getD, hx] at hy
            exact absurd hy (by decide)
        | some pos =>
            rw [hpos] at h
            obtain ⟨c, hc, hpc⟩ := position_eq_some hpos
            have hcgc : c = gc := of_decide_eq_true hpc
            subst hcgc
            rcases hinv pos with horig | hsent
            · rw [hc] at horig
              rw [hgD]
              obtain ⟨hlt, heq⟩ := List.getElem?_eq_some.mp horig.symm
              exact heq ▸ List.getElem_mem hlt
            · rw [hc] at hsent
              obtain rfl : c = ' ' := Option.some.inj hsent
              rw [hgD] at hsp
              exact absurd rfl hsp
      · -- index i sits deeper; the head turn only shrinks the buffer
        have hji : j ≠ i := fun hji => hjrest (hji ▸ hirest)
        by_cases hxj : res.getD j ' ' = 'X'
        · rw [if_pos hxj] at h
          cases hpos : position (fun c => c = gc) buf with
          | none =>
              rw [hpos] at h
              exact ih h hndrest hinv hirest hx
          | some pos =>
              rw [hpos] at h
              have hxi : (res.set j 'Y').getD i ' ' = 'X' := by
                rw [List.getD_eq_getElem?_getD, List.getElem?_set_ne hji,
                  ← List.getD_eq_getElem?_getD]
                exact hx
              refine ih h hndrest (fun k => ?_) hirest hxi
              by_cases hpk : pos = k
              · subst hpk
                have hlen : pos < buf.length := by
                  obtain ⟨c, hc, -⟩ := position_eq_some hpos
                  by_contra hge
                  push_neg at hge
                  rw [List.getElem?_eq_none hge] at hc
                  cases hc
                exact Or.inr (List.getElem?_set_eq_of_lt _ hlen)
              · rw [List.getElem?_set_ne hpk]
                exact hinv k
        · rw [if_neg hxj] at h
          exact ih h hndrest hinv hirest hx

/-- Per letter, the first pass consumes exactly one buffer cell for
every position it marks green with that letter. -/
theorem pass1_count {g : Word} {idxs : List Nat} {res buf res' buf' : List Char}
    (h : pass1 g idxs res buf = some (res', buf')) (hnd : idxs.Nodup)
    {ch : Char} (hch : ch ≠ ' ')
    (hentry : ∀ j ∈ idxs, res.getD j ' ' = 'X') :
    countChar buf ch = countChar buf' ch +
      idxs.countP (fun j => decide (res'.getD j ' ' = 'G' ∧ g.getD j ' ' = ch)) := by
  induction idxs generalizing res buf with
  | nil =>
      obtain ⟨rfl, rfl⟩ := Prod.mk.injEq .. ▸ Option.some.inj h
      simp
  | cons j rest ih =>
      have hjrest : j ∉ rest := (List.nodup_cons.mp hnd).1
      have hndrest : rest.Nodup := (List.nodup_cons.mp hnd).2
      have hxj : res.getD j ' ' = 'X' := hentry j (List.mem_cons_self j rest)
      have hjlen : j < res.length := by
        by_contra hge
        push_neg at hge
        rw [List.getD_eq_getElem?_getD, List.getElem?_eq_none hge] at hxj
        exact absurd hxj (by decide)
      rw [pass1_cons] at h
      cases hgc : g[j]? with
      | none => rw [hgc] at h; simp at h
      | some gc =>
      cases htc : buf[j]? with
      | none => rw [hgc, htc] at h; simp at h
      | some tc =>
      rw [hgc, htc, Option.some_bind, Option.some_bind] at h
      have hgD : g.getD j ' ' = gc := by
        rw [List.getD_eq_getElem?_getD, hgc]; rfl
      rw [List.countP_cons]
      by_cases heq : gc = tc
      · rw [if_pos heq] at h
        have hrG : res'.getD j ' ' = 'G' := by
          rw [List.getD_eq_getElem?_getD, (pass1_untouched h hjrest).1,
            List.getElem?_set_eq_of_lt _ hjlen]
          rfl
        have hentry' : ∀ k ∈ rest, (res.set j 'G').getD k ' ' = 'X' := by
          intro k hk
          have hjk : j ≠ k := fun hjk => hjrest (hjk ▸ hk)
          rw [List.getD_eq_getElem?_getD, List.getElem?_set_ne hjk,
            ← List.getD_eq_getElem?_getD]
          exact hentry k (List.mem_cons_of_mem j hk)
        have hmain := ih h hndrest hentry'
        have hconsume : countChar buf ch = countChar (buf.set j ' ') ch +
            (if gc = ch then 1 else 0) := by
          subst heq
          exact countChar_set htc hch
        rw [hconsume, hmain]
        have : (decide (res'.getD j ' ' = 'G' ∧ g.getD j ' ' = ch)) =
            (decide (gc = ch)) := by
          rw [hrG, hgD]
          simp
        rw [this]
        by_cases hgch : gc = ch
        · simp [hgch]
          omega
        · simp [hgch]
      · rw [if_neg heq] at h
        have hrX : res'.getD j ' ' = 'X' := by
          rw [List.getD_eq_getElem?_getD, (pass1_untouched h hjrest).1,
            ← List.getD_eq_getElem?_getD]
          exact hxj
        have hmain := ih h hndrest
          (fun k hk => hentry k (List.mem_cons_of_mem j hk))
        rw [hmain, hrX]
        simp

/-- Per letter, the second pass consumes exactly one buffer cell for
every position it marks yellow with that letter. -/
theorem pass2_count {g : Word} {idxs : List Nat} {res buf res' buf' : List Char}
    (h : pass2 g idxs res buf = some (res', buf')) (hnd : idxs.Nodup)
    {ch : Char} (hch : ch ≠ ' ')
    (hentry : ∀ j ∈ idxs, res.getD j ' ' ≠ 'Y') :
    countChar buf ch = countChar buf' ch +
      idxs.countP (fun j => decide (res'.getD j ' ' = 'Y' ∧ g.getD j ' ' = ch)) := by
  induction idxs generalizing res buf with
  | nil =>
      obtain ⟨rfl, rfl⟩ := Prod.mk.injEq .. ▸ Option.some.inj h
      simp
  | cons j rest ih =>
      have hjrest : j ∉ rest := (List.nodup_cons.mp hnd).1
      have hndrest : rest.Nodup := (List.nodup_cons.mp hnd).2
      rw [pass2_cons] at h
      cases hgc : g[j]? with
      | none => rw [hgc] at h; simp at h
      | some gc =>
      rw [hgc, Option.some_bind] at h
      have hgD : g.getD j ' ' = gc := by
        rw [List.getD_eq_getElem?_getD, hgc]; rfl
      rw [List.countP_cons]
      by_cases hxj : res.getD j ' ' = 'X'
      · rw [if_pos hxj] at h
        have hjlen : j < res.length := by
          by_contra hge
          push_neg at hge
          rw [List.getD_eq_getElem?_getD, List.getElem?_eq_none hge] at hxj
          exact absurd hxj (by decide)
        cases hpos : position (fun c => c = gc) buf with
        | none =>
            rw [hpos] at h
            have hrX : res'.getD j ' ' = res.getD j ' ' := by
              rw [List.getD_eq_getElem?_getD, pass2_untouched h hjrest,
                ← List.getD_eq_getElem?_getD]
            have hmain := ih h hndrest
              (fun k hk => hentry k (List.mem_cons_of_mem j hk))
            rw [hmain, hrX, hxj]
            simp
        | some pos =>
            rw [hpos] at h
            obtain ⟨c, hc, hpc⟩ := position_eq_some hpos
            have hcgc : c = gc := of_decide_eq_true hpc
            rw [hcgc] at hc
            have hrY : res'.getD j ' ' = 'Y' := by
              rw [List.getD_eq_getElem?_getD, pass2_untouched h hjrest,
                List.getElem?_set_eq_of_lt _ hjlen]
              rfl
            have hentry' : ∀ k ∈ rest, (res.set j 'Y').getD k ' ' ≠ 'Y' := by
              intro k hk
              have hjk : j ≠ k := fun hjk => hjrest (hjk ▸ hk)
              rw [List.getD_eq_getElem?_getD, List.getElem?_set_ne hjk,
                ← List.getD_eq_getElem?_getD]
              exact hentry k (List.mem_cons_of_mem j hk)
            have hmain := ih h hndrest hentry'
            have hconsume := countChar_set hc hch
            rw [hconsume, hmain]
            have : (decide (res'.getD j ' ' = 'Y' ∧ g.getD j ' ' = ch)) =
                (decide (gc = ch)) := by
              rw [hrY, hgD]
              simp
            rw [this]
            by_cases hgch : gc = ch
            · simp [hgch]
              omega
            · simp [hgch]
      · rw [if_neg hxj] at h
        have hrj : res'.getD j ' ' = res.getD j ' ' := by
          rw [List.getD_eq_getElem?_getD, pass2_untouched h hjrest,
            ← List.getD_eq_getElem?_getD]
        have hmain := ih h hndrest
          (fun k hk => hentry k (List.mem_cons_of_mem j hk))
        rw [hmain]
        have : (decide (res'.getD j ' ' = 'Y' ∧ g.getD j ' ' = ch)) = false := by
          rw [hrj]
          simp only [decide_eq_false_iff_not]
          rintro ⟨hY, -⟩
          exact hentry j (List.mem_cons_self j rest) hY
        rw [this]
        simp

/-- The second pass never grows the count of a letter in the buffer. -/
theorem pass2_count_mono {g : Word} {idxs : List Nat} {res buf res' buf' : List Char}
    (h : pass2 g idxs res buf = some (res', buf')) {ch : Char} (hch : ch ≠ ' ') :
    countChar buf' ch ≤ countChar buf ch := by
  induction idxs generalizing res buf with
  | nil =>
      obtain ⟨rfl, rfl⟩ := Prod.mk.injEq .. ▸ Option.some.inj h
      exact le_rfl
  | cons j rest ih =>
      rw [pass2_cons] at h
      cases hgc : g[j]? with
      | none => rw [hgc] at h; simp at h
      | some gc =>
      rw [hgc, Option.some_bind] at h
      by_cases hxj : res.getD j ' ' = 'X'
      · rw [if_pos hxj] at h
        cases hpos : position (fun c => c = gc) buf with
        | none => rw [hpos] at h; exact ih h
        | some pos =>
            rw [hpos] at h
            exact (ih h).trans (countChar_set_le hch)
      · rw [if_neg hxj] at h
        exact ih h

/-- At a position that stays gray, the buffer holds no further
occurrence of the guessed letter from that turn onward. -/
theorem pass2_gray_exhaust {g : Word} {idxs : List Nat} {res buf res' buf' : List Char}
    (h : pass2 g idxs res buf = some (res', buf')) (hnd : idxs.Nodup)
    {i : Nat} (hi : i ∈ idxs) (hx : res.getD i ' ' = 'X')
    (hx' : res'.getD i ' ' = 'X') {ch : Char} (hch : ch ≠ ' ')
    (hgD : g.getD i ' ' = ch) :
    countChar buf' ch = 0 := by
  induction idxs generalizing res buf with
  | nil => cases hi
  | cons j rest ih =>
      have hjrest : j ∉ rest := (List.nodup_cons.mp hnd).1
      have hndrest : rest.Nodup := (List.nodup_cons.mp hnd).2
      rw [pass2_cons] at h
      cases hgc : g[j]? with
      | none => rw [hgc] at h; simp at h
      | some gc =>
      rw [hgc, Option.some_bind] at h
      rcases List.mem_cons.mp hi with rfl | hirest
      · -- the turn of the gray position itself
        rw [if_pos hx] at h
        have hgcch : gc = ch := by
          rw [List.getD_eq_getElem?_getD, hgc] at hgD
          exact hgD
        cases hpos : position (fun c => c = gc) buf with
        | none =>
            rw [hpos] at h
            have hempty : countChar buf ch = 0 := by
              apply countChar_eq_zero_of_not_mem
              intro c hc hcch
              exact (position_eq_none.mp hpos c hc) (by simp [hcch, hgcch])
            have := pass2_count_mono h hch
            omega
        | some pos =>
            rw [hpos] at h
            have hrY : res'.getD i ' ' = 'Y' := by
              have hjlen : i < res.length := by
                by_contra hge
                push_neg at hge
                rw [List.getD_eq_getElem?_getD, List.getElem?_eq_none hge] at hx
                exact absurd hx (by decide)
              rw [List.getD_eq_getElem?_getD, pass2_untouched h hjrest,
                List.getElem?_set_eq_of_lt _ hjlen]
              rfl
            rw [hrY] at hx'
            exact absurd hx' (by decide)
      · -- a different turn first
        have hji : j ≠ i := fun hji => hjrest (hji ▸ hirest)
        by_cases hxj : res.getD j ' ' = 'X'
        · rw [if_pos hxj] at h
          cases hpos : position (fun c => c = gc) buf with
          | none =>
              rw [hpos] at h
              exact ih h hndrest hirest hx
          | some pos =>
              rw [hpos] at h
              have hxi : (res.set j 'Y').getD i ' ' = 'X' := by
                rw [List.getD_eq_getElem?_getD, List.getElem?_set_ne hji,
                  ← List.getD_eq_getElem?_getD]
                exact hx
              exact ih h hndrest hirest hxi
        · rw [if_neg hxj] at h
          exact ih h hndrest hirest hx

theorem countP_or_disjoint {α : Type} {p q : α → Bool} (l : List α)
    (hdisj : ∀ x ∈ l, ¬(p x = true ∧ q x = true)) :
    l.countP (fun x => p x || q x) = l.countP p + l.countP q := by
  induction l with
  | nil => simp
  | cons a l ih =>
      rw [List.countP_cons, List.countP_cons, List.countP_cons,
        ih (fun x hx => hdisj x (List.mem_cons_of_mem a hx))]
      by_cases hp : p a = true
      · have hq : ¬ q a = true := fun hq => hdisj a (List.mem_cons_self a l) ⟨hp, hq⟩
        simp [hp, hq]
        omega
      · by_cases hq : q a = true
        · simp [hp, hq]
          omega
        · simp [hp, hq]

theorem encodeMarker_eq_G {r : LetterResult} : encodeMarker r = 'G' ↔ r = .Green := by
  cases r <;> simp [encodeMarker]

theorem encodeMarker_eq_Y {r : LetterResult} : encodeMarker r = 'Y' ↔ r = .Yellow := by
  cases r <;> simp [encodeMarker]

theorem encodeMarker_eq_X {r : LetterResult} : encodeMarker r = 'X' ↔ r = .Gray := by
  cases r <;> simp [encodeMarker]

/-- Replay completeness for one record: a target that reproduces the
recorded pattern passes the per-record feedback test
`word_matches_single_feedback`. -/
theorem matcher_complete_single {g t : Word} {results : List LetterResult}
    (hsp : ' ' ∉ g)
    (hsim : simulate_guess_pattern g t = some (results.map encodeMarker)) :
    word_matches_single_feedback t ⟨g, results⟩ = true := by
  -- lengths: success rules out the short-input panic
  have hglen : 5 ≤ g.length := by
    by_contra hlt
    push_neg at hlt
    rw [simulate_eq_none_of_short (Or.inl hlt)] at hsim
    cases hsim
  have htlen : 5 ≤ t.length := by
    by_contra hlt
    push_neg at hlt
    rw [simulate_eq_none_of_short (Or.inr hlt)] at hsim
    cases hsim
  -- decompose the simulator run
  rw [simulate_guess_pattern_eq] at hsim
  cases h1 : pass1 g (List.range 5) (List.replicate 5 'X') t with
  | none => rw [h1] at hsim; simp at hsim
  | some p1 =>
  obtain ⟨res1, buf1⟩ := p1
  rw [h1, Option.some_bind] at hsim
  cases h2 : pass2 g (List.range 5) res1 buf1 with
  | none => rw [h2] at hsim; simp at hsim
  | some p2 =>
  obtain ⟨res2, buf2⟩ := p2
  rw [h2, Option.some_bind] at hsim
  have hres2 : res2 = results.map encodeMarker := Option.some.inj hsim
  have hsim' : simulate_guess_pattern g t = some (results.map encodeMarker) := by
    rw [simulate_guess_pattern_eq, h1, Option.some_bind, h2, Option.some_bind, hres2]
  -- lengths of the result vectors
  have hlen1 : res1.length = 5 := by
    have := (pass1_length h1).1
    simpa using this
  have hlen2 : res2.length = 5 := by
    have := (pass2_length h2).1
    omega
  have hreslen : results.length = 5 := by
    have := hres2 ▸ hlen2
    simpa using this
  set pat := results.map encodeMarker with hpatdef
  have hpatlen : pat.length = 5 := by
    rw [hpatdef, List.length_map]
    exact hreslen
  -- per-position bridge between the marker list and the char pattern
  have hpat_i : ∀ i, i < 5 → pat.getD i ' ' = encodeMarker (results.getD i .Gray) := by
    intro i hi
    have hires : i < results.length := hreslen ▸ hi
    rw [List.getD_eq_getElem?_getD, hpatdef, List.getElem?_map,
      getElem?_eq_some_getD hires .Gray]
    rfl
  -- entry state of pass2 holds only X and G cells
  have hres1_mem : ∀ c ∈ res1, c = 'X' ∨ c = 'G' := by
    intro c hc
    rcases pass1_mem h1 c hc with hc0 | hG
    · exact Or.inl (List.mem_replicate.mp hc0).2
    · exact Or.inr hG
  have hres1_XG : ∀ i, i < 5 → res1.getD i ' ' = 'X' ∨ res1.getD i ' ' = 'G' := by
    intro i hi
    have hi1 : i < res1.length := hlen1 ▸ hi
    rw [List.getD_eq_getElem?_getD, List.getElem?_eq_getElem hi1]
    exact hres1_mem _ (List.getElem_mem hi1)
  -- the pattern agrees with `res1` on greens
  have hgreen12 : ∀ i, i < 5 → (res1.getD i ' ' = 'G' ↔ pat.getD i ' ' = 'G') := by
    intro i hi
    have hres2pat : res2.getD i ' ' = pat.getD i ' ' := by rw [hres2]
    rcases pass2_preserve h2 i with hsame | ⟨hX, hY⟩
    · rw [← hres2pat, hsame]
    · rw [← hres2pat, hY, hX]
      constructor
      · intro hc; exact absurd hc (by decide)
      · intro hc; exact absurd hc (by decide)
  -- a yellow in the pattern forces an X-to-Y transition
  have hyellow2 : ∀ i, i < 5 → pat.getD i ' ' = 'Y' →
      res1.getD i ' ' = 'X' := by
    intro i hi hY
    have hres2pat : res2.getD i ' ' = pat.getD i ' ' := by rw [hres2]
    rcases pass2_preserve h2 i with hsame | ⟨hX, -⟩
    · rcases hres1_XG i hi with hX | hG
      · exact hX
      · rw [← hres2pat, hsame, hG] at hY
        exact absurd hY (by decide)
    · exact hX
  -- an X in the pattern was an X already after pass1
  have hgray2 : ∀ i, i < 5 → pat.getD i ' ' = 'X' →
      res1.getD i ' ' = 'X' := by
    intro i hi hX
    have hres2pat : res2.getD i ' ' = pat.getD i ' ' := by rw [hres2]
    rcases pass2_preserve h2 i with hsame | ⟨hX1, hY⟩
    · rw [← hres2pat, hsame] at hX
      exact hX
    · exact hX1
  have hbufinv : ∀ j : Nat, buf1[j]? = t[j]? ∨ buf1[j]? = some ' ' :=
    pass1_bufinv h1 (fun j => Or.inl rfl)
  have hgns : ∀ i, i < 5 → g.getD i ' ' ≠ ' ' := by
    intro i hi hspc
    have hig : i < g.length := lt_of_lt_of_le hi hglen
    rw [List.getD_eq_getElem?_getD, List.getElem?_eq_getElem hig] at hspc
    exact hsp (hspc ▸ List.getElem_mem hig)
  rw [word_matches_single_feedback_iff]
  refine ⟨fun i hi hG => ?_, fun i hi hY => ?_, fun i hi hX => ?_⟩
  · -- greens
    have hpatG : pat.getD i ' ' = 'G' := by
      rw [hpat_i i hi, hG]
      rfl
    have := (simulate_green_iff hsim' hi).mp hpatG
    rw [getElem?_eq_some_getD (lt_of_lt_of_le hi hglen) ' ',
      getElem?_eq_some_getD (lt_of_lt_of_le hi htlen) ' '] at this
    exact (Option.some.inj this).symm
  · -- yellows
    have hpatY : pat.getD i ' ' = 'Y' := by
      rw [hpat_i i hi, hY]
      rfl
    constructor
    · -- banned position
      intro hpos
      have hne : pat.getD i ' ' ≠ 'G' := by
        rw [hpatY]
        decide
      apply hne
      rw [simulate_green_iff hsim' hi,
        getElem?_eq_some_getD (lt_of_lt_of_le hi hglen) ' ',
        getElem?_eq_some_getD (lt_of_lt_of_le hi htlen) ' ', hpos]
    · -- containment in the target
      have hres1X := hyellow2 i hi hpatY
      have hres2Y : res2.getD i ' ' = 'Y' := by
        rw [hres2]
        exact hpatY
      exact pass2_yellow_mem h2 (List.nodup_range 5) hbufinv
        (List.mem_range.mpr hi) hres1X hres2Y (hgns i hi)
  · -- grays: the cap is met with equality
    have hpatX : pat.getD i ' ' = 'X' := by
      rw [hpat_i i hi, hX]
      rfl
    have hres1X := hgray2 i hi hpatX
    have hres2X : res2.getD i ' ' = 'X' := by
      rw [hres2]
      exact hpatX
    have hch : g.getD i ' ' ≠ ' ' := hgns i hi
    have hcount1 := pass1_count h1 (List.nodup_range 5) hch
      (fun j hj => by
        have hj5 := List.mem_range.mp hj
        rw [List.getD_eq_getElem?_getD, List.getElem?_replicate, if_pos hj5]
        rfl)
    have hcount2 := pass2_count h2 (List.nodup_range 5) hch
      (fun j hj => by
        have hj5 := List.mem_range.mp hj
        rcases hres1_XG j hj5 with hXj | hGj
        · rw [hXj]; decide
        · rw [hGj]; decide)
    have hexhaust := pass2_gray_exhaust h2 (List.nodup_range 5)
      (List.mem_range.mpr hi) hres1X hres2X hch rfl
    -- rewrite the two counted predicates in terms of the pattern
    have hGcongr : (List.range 5).countP
        (fun j => decide (res1.getD j ' ' = 'G' ∧ g.getD j ' ' = g.getD i ' ')) =
        (List.range 5).countP
        (fun j => decide (pat.getD j ' ' = 'G' ∧ g.getD j ' ' = g.getD i ' ')) := by
      apply List.countP_congr
      intro j hj
      have hj5 := List.mem_range.mp hj
      simp only [decide_eq_true_eq]
      rw [hgreen12 j hj5]
    have hreq : requiredCount ⟨g, results⟩ (g.getD i ' ') =
        (List.range 5).countP
          (fun j => decide (pat.getD j ' ' = 'G' ∧ g.getD j ' ' = g.getD i ' ')) +
        (List.range 5).countP
          (fun j => decide (res2.getD j ' ' = 'Y' ∧ g.getD j ' ' = g.getD i ' ')) := by
      rw [requiredCount]
      rw [← countP_or_disjoint (List.range 5)
        (p := fun j => decide (pat.getD j ' ' = 'G' ∧ g.getD j ' ' = g.getD i ' '))
        (q := fun j => decide (res2.getD j ' ' = 'Y' ∧ g.getD j ' ' = g.getD i ' '))
        (fun j hj => by
          simp only [decide_eq_true_eq]
          rintro ⟨⟨hGj, -⟩, ⟨hYj, -⟩⟩
          rw [hres2] at hYj
          rw [hGj] at hYj
          exact absurd hYj (by decide))]
      apply List.countP_congr
      intro j hj
      have hj5 := List.mem_range.mp hj
      simp only [Bool.or_eq_true, decide_eq_true_eq]
      constructor
      · rintro ⟨hGY, hgj⟩
        rcases hGY with hGj | hYj
        · exact Or.inl ⟨by rw [hpat_i j hj5, hGj]; rfl, hgj⟩
        · refine Or.inr ⟨?_, hgj⟩
          rw [hres2, hpat_i j hj5, hYj]
          rfl
      · rintro (⟨hGj, hgj⟩ | ⟨hYj, hgj⟩)
        · rw [hpat_i j hj5, encodeMarker_eq_G] at hGj
          exact ⟨Or.inl hGj, hgj⟩
        · rw [hres2] at hYj
          rw [hpat_i j hj5, encodeMarker_eq_Y] at hYj
          exact ⟨Or.inr hYj, hgj⟩
    show countChar t (g.getD i ' ') ≤ requiredCount ⟨g, results⟩ (g.getD i ' ')
    rw [hreq, ← hGcongr]
    omega

/-- Counterexample for C1 as stated.  The candidate `DDDDE` survives
the filter for the single record `(EEABC, Yellow Yellow Gray Gray
Gray)`, yet replaying `EEABC` against it produces `YXXXX` — the second
recorded Yellow is not reproduced, because the per-record test never
checks that a twice-yellow letter occurs twice. -/
theorem C1_replay_cex :
    filter_words_with_feedback ["DDDDE".toList]
        [⟨"EEABC".toList, [.Yellow, .Yellow, .Gray, .Gray, .Gray]⟩] =
      ["DDDDE".toList] ∧
    simulate_guess_pattern "EEABC".toList "DDDDE".toList = some "YXXXX".toList ∧
    "YXXXX".toList ≠
      ([LetterResult.Yellow, .Yellow, .Gray, .Gray, .Gray].map encodeMarker) := by
  refine ⟨by decide, by decide, by decide⟩

/-- Claim C1, amended: membership in `filter(universe, history)` is
exactly per-record acceptance by the (lenient) feedback test, which
does *not* force `simulate(g, t) = p` for every record; in the converse
direction replay is complete — any word of the universe that reproduces
every recorded pattern (records without the consumed-cell sentinel in
the guess) survives the filter. -/
theorem C1_replay_amended :
    (∀ (univ : List Word) (history : List GuessResult) (t : Word),
      t ∈ filter_words_with_feedback univ history →
        t ∈ univ ∧ ∀ gr ∈ history, word_matches_single_feedback t gr = true) ∧
    (∀ (univ : List Word) (history : List GuessResult) (t : Word),
      (∀ gr ∈ history, ' ' ∉ gr.word ∧
        simulate_guess_pattern gr.word t = some (gr.results.map encodeMarker)) →
      t ∈ univ → t ∈ filter_words_with_feedback univ history) := by
  constructor
  · intro univ history t ht
    rw [filter_words_with_feedback, List.mem_filter] at ht
    exact ⟨ht.1, List.all_eq_true.mp ht.2⟩
  · intro univ history t hrec ht
    rw [filter_words_with_feedback, List.mem_filter]
    refine ⟨ht, List.all_eq_true.mpr fun gr hgr => ?_⟩
    exact matcher_complete_single (hrec gr hgr).1 (hrec gr hgr).2

/-- Witness for C1: the true target `CRATE` reproduces the record
`(CRANE, GGGXG)` and indeed survives the filter. -/
theorem C1_replay_amended_witness :
    "CRATE".toList ∈ filter_words_with_feedback ["CRANE".toList, "CRATE".toList]
      [⟨"CRANE".toList, [.Green, .Green, .Green, .Gray, .Green]⟩] :=
  C1_replay_amended.2 ["CRANE".toList, "CRATE".toList]
    [⟨"CRANE".toList, [.Green, .Green, .Green, .Gray, .Green]⟩] "CRATE".toList
    (fun gr hgr => by
      have hgr' : gr = ⟨"CRANE".toList, [.Green, .Green, .Green, .Gray, .Green]⟩ := by
        simpa using hgr
      subst hgr'
      exact ⟨by decide, by decide⟩)
    (by decide)

/-! ## Claim C5 -/

/-- The probe scan is the first-match search over the probe list. -/
theorem probeScan_eq_find? (gw : List Word) (probes : List Word) :
    probeScan gw probes =
      probes.find? (fun p => gw.any (fun w => w.map Char.toUpper = p)) := by
  induction probes with
  | nil => rfl
  | cons p rest ih =>
      by_cases hp : gw.any (fun w => w.map Char.toUpper = p) = true
      · rw [probeScan, if_pos hp]
        exact (List.find?_cons_of_pos rest hp).symm
      · rw [probeScan, if_neg hp, ih]
        exact (List.find?_cons_of_neg rest hp).symm

/-- Counterexample for C5: with the non-empty lexicon `["HELLO"]` none
of the probe words TARES, SLATE, CRANE, CRATE, SLANT is present, and
`compute_optimal_first_guess` caches nothing — there is no fallback to
the first word of the lexicon, refuting "a first guess is always cached
after a successful load". -/
theorem C5_first_guess_cex :
    compute_optimal_first_guess ["HELLO".toList] = none ∧
    compute_optimal_first_guess ["HELLO".toList] ≠ some "HELLO".toList := by
  refine ⟨by decide, by decide⟩

/-- Claim C5, amended: for a non-empty lexicon the computation selects
the first word of the probe list `TARES, SLATE, CRANE, CRATE, SLANT`
that some lexicon entry uppercases to; when no probe word is present
*nothing* is cached (no fallback to the first word of `Guesses`), and
`best_guess` on an empty history returns exactly the cached value. -/
theorem C5_first_guess_amended :
    (∀ gw : List Word, compute_optimal_first_guess gw =
      if gw.isEmpty then none
      else optimal_first_guesses.find?
        (fun p => gw.any (fun w => w.map Char.toUpper = p))) ∧
    (∀ gw : List Word,
      (∀ p ∈ optimal_first_guesses, ∀ w ∈ gw, ¬ w.map Char.toUpper = p) →
      compute_optimal_first_guess gw = none) ∧
    (∀ (wm : WordManager) (cfg : SolverConfig),
      get_best_guess wm cfg [] = wm.optimal_first_guess) := by
  have heq : ∀ gw : List Word, compute_optimal_first_guess gw =
      if gw.isEmpty then none
      else optimal_first_guesses.find?
        (fun p => gw.any (fun w => w.map Char.toUpper = p)) := by
    intro gw
    rw [compute_optimal_first_guess, probeScan_eq_find?]
  refine ⟨heq, fun gw hnone => ?_, fun wm cfg => rfl⟩
  rw [heq]
  by_cases hempty : gw.isEmpty
  · rw [if_pos hempty]
  · rw [if_neg hempty, List.find?_eq_none]
    intro p hp
    simp only [List.any_eq_true, not_exists, not_and]
    intro w hw
    simpa using hnone p hp w hw

/-- Witness for C5: a lexicon containing no probe word caches nothing. -/
theorem C5_first_guess_amended_witness :
    compute_optimal_first_guess ["WORLD".toList] = none :=
  C5_first_guess_amended.2.1 ["WORLD".toList] (by decide)

/-! ## Claim C7 -/

theorem scoreLoop_nil (remaining : List Word) (best : Option (Word × ℝ)) (n : Nat) :
    scoreLoop remaining [] best n = best.map Prod.fst := rfl

theorem scoreLoop_cons (remaining : List Word) (c : Word) (rest : List Word)
    (best : Option (Word × ℝ)) (processed : Nat) :
    scoreLoop remaining (c :: rest) best processed =
      if beatsBest best (combinedScore remaining c) then
        if (5.0 : ℝ) ≤ calculate_entropy c remaining then some c
        else if 100 ≤ processed + 1 then some c
        else scoreLoop remaining rest (some (c, combinedScore remaining c)) (processed + 1)
      else
        if 100 ≤ processed + 1 then best.map Prod.fst
        else scoreLoop remaining rest best (processed + 1) := rfl

/-- With fewer than 100 candidates already processed, the scoring loop
inspects at most the first `100 - n` remaining candidates: the hard cap
makes everything beyond them irrelevant. -/
theorem scoreLoop_take (remaining : List Word) (cands : List Word) :
    ∀ (best : Option (Word × ℝ)) (n : Nat), n < 100 →
      scoreLoop remaining cands best n =
        scoreLoop remaining (cands.take (100 - n)) best n := by
  induction cands with
  | nil =>
      intro best n hn
      rw [List.take_nil]
  | cons c rest ih =>
      intro best n hn
      have hsub : 100 - n = (100 - (n + 1)) + 1 := by omega
      rw [hsub, List.take_succ_cons, scoreLoop_cons, scoreLoop_cons]
      by_cases hb : beatsBest best (combinedScore remaining c)
      · rw [if_pos hb, if_pos hb]
        by_cases he : (5.0 : ℝ) ≤ calculate_entropy c remaining
        · rw [if_pos he, if_pos he]
        · rw [if_neg he, if_neg he]
          by_cases h100 : 100 ≤ n + 1
          · rw [if_pos h100, if_pos h100]
          · rw [if_neg h100, if_neg h100]
            exact ih _ (n + 1) (by omega)
      · rw [if_neg hb, if_neg hb]
        by_cases h100 : 100 ≤ n + 1
        · rw [if_pos h100, if_pos h100]
        · rw [if_neg h100, if_neg h100]
          exact ih _ (n + 1) (by omega)

/-- The assembled pool is always truncated to the configured cap. -/
theorem get_candidate_words_length_le (cfg : SolverConfig) (remaining : List Word) :
    (get_candidate_words cfg remaining).length ≤ usizeCast cfg.candidate_cap := by
  rw [get_candidate_words]
  by_cases h :
      ((if cfg.include_killer_words then get_killer_words else get_top_strategic_words).foldl
        (fun acc w => if acc.contains w then acc else acc ++ [w]) remaining).length >
      usizeCast cfg.candidate_cap
  · rw [if_pos h, List.length_take]
    omega
  · rw [if_neg h]
    omega

/-- Claim C7: under the default configuration the scoring loop of
`best_guess` evaluates at most 100 candidates — its result only depends
on the first 100 entries of the pool — and the assembled candidate pool
holds at most `candidate_cap` entries (200 by default). -/
theorem C7_candidate_bounds :
    (∀ (remaining cands : List Word) (best : Option (Word × ℝ)),
      scoreLoop remaining cands best 0 =
        scoreLoop remaining (cands.take 100) best 0) ∧
    (∀ (cfg : SolverConfig) (remaining : List Word),
      (get_candidate_words cfg remaining).length ≤ usizeCast cfg.candidate_cap) ∧
    (∀ remaining : List Word,
      (get_candidate_words defaultConfig remaining).length ≤ 200) := by
  refine ⟨fun remaining cands best => ?_, get_candidate_words_length_le,
    fun remaining => ?_⟩
  · exact scoreLoop_take remaining cands best 0 (by omega)
  · have := get_candidate_words_length_le defaultConfig remaining
    have hcap : usizeCast (defaultConfig.candidate_cap) = 200 := by
      rw [defaultConfig]
      decide
    omega

/-! ## Claim C6 -/

/-- Once the running best is set, the scoring loop returns a word. -/
theorem scoreLoop_some_of_some (remaining : List Word) :
    ∀ (cands : List Word) (p : Word × ℝ) (n : Nat),
      ∃ w, scoreLoop remaining cands (some p) n = some w := by
  intro cands
  induction cands with
  | nil => exact fun p n => ⟨p.1, rfl⟩
  | cons c rest ih =>
      intro p n
      rw [scoreLoop_cons]
      by_cases hb : beatsBest (some p) (combinedScore remaining c)
      · rw [if_pos hb]
        by_cases he : (5.0 : ℝ) ≤ calculate_entropy c remaining
        · rw [if_pos he]
          exact ⟨c, rfl⟩
        · rw [if_neg he]
          by_cases h100 : 100 ≤ n + 1
          · rw [if_pos h100]
            exact ⟨c, rfl⟩
          · rw [if_neg h100]
            exact ih _ (n + 1)
      · rw [if_neg hb]
        by_cases h100 : 100 ≤ n + 1
        · rw [if_pos h100]
          exact ⟨p.1, rfl⟩
        · rw [if_neg h100]
          exact ih p (n + 1)

/-- The first candidate always beats the `NEG_INFINITY` initial state,
so a non-empty pool yields a word. -/
theorem scoreLoop_some_of_ne_nil (remaining c : _) (rest : List Word) (n : Nat) :
    ∃ w, scoreLoop remaining (c :: rest) none n = some w := by
  rw [scoreLoop_cons, if_pos (show beatsBest none (combinedScore remaining c) from trivial)]
  by_cases he : (5.0 : ℝ) ≤ calculate_entropy c remaining
  · rw [if_pos he]
    exact ⟨c, rfl⟩
  · rw [if_neg he]
    by_cases h100 : 100 ≤ n + 1
    · rw [if_pos h100]
      exact ⟨c, rfl⟩
    · rw [if_neg h100]
      exact scoreLoop_some_of_some remaining rest _ (n + 1)

theorem foldl_dedup_append_ne_nil (strat : List Word) :
    ∀ acc : List Word, acc ≠ [] →
      strat.foldl (fun acc w => if acc.contains w then acc else acc ++ [w]) acc ≠ [] := by
  induction strat with
  | nil => exact fun acc h => h
  | cons w rest ih =>
      intro acc h
      rw [List.foldl_cons]
      apply ih
      by_cases hc : acc.contains w
      · rw [if_pos hc]
        exact h
      · rw [if_neg hc]
        intro hnil
        simp at hnil

/-- A non-zero cap leaves the assembled pool non-empty whenever some
word remains. -/
theorem get_candidate_words_ne_nil (cfg : SolverConfig) (remaining : List Word)
    (hne : remaining ≠ []) (hcap : 1 ≤ usizeCast cfg.candidate_cap) :
    get_candidate_words cfg remaining ≠ [] := by
  rw [get_candidate_words]
  have hcand := foldl_dedup_append_ne_nil
    (if cfg.include_killer_words then get_killer_words else get_top_strategic_words)
    remaining hne
  by_cases h :
      ((if cfg.include_killer_words then get_killer_words else get_top_strategic_words).foldl
        (fun acc w => if acc.contains w then acc else acc ++ [w]) remaining).length >
      usizeCast cfg.candidate_cap
  · rw [if_pos h]
    intro hnil
    rw [List.take_eq_nil_iff] at hnil
    rcases hnil with hnil | hnil
    · omega
    · exact hcand hnil
  · rw [if_neg h]
    exact hcand

/-- The solver returns a word exactly when some word remains. -/
theorem solver_get_best_guess_isSome (cfg : SolverConfig) (remaining : List Word)
    (grs : List GuessResult) (hne : remaining ≠ [])
    (hcap : 1 ≤ usizeCast cfg.candidate_cap) :
    ∃ w, solver_get_best_guess cfg remaining grs = some w := by
  rw [solver_get_best_guess]
  have hempty : remaining.isEmpty = false := by
    cases remaining with
    | nil => exact absurd rfl hne
    | cons a l => rfl
  rw [hempty]
  simp only [Bool.false_eq_true, if_false]
  by_cases hlen : remaining.length ≤ 2
  · rw [if_pos hlen]
    cases remaining with
    | nil => exact absurd rfl hne
    | cons a l => exact ⟨a, rfl⟩
  · rw [if_neg hlen]
    cases hcands : get_candidate_words cfg remaining with
    | nil => exact absurd hcands (get_candidate_words_ne_nil cfg remaining hne hcap)
    | cons c rest => exact scoreLoop_some_of_ne_nil remaining c rest 0

/-- Counterexample for C6 as stated: over the loaded lexicon `[HELLO]`
the empty history filters `Guesses` to the non-empty `[HELLO]`, yet
`best_guess` returns none, because the cached optimal first guess does
not exist (no probe word is present and nothing else is cached). -/
theorem C6_none_iff_cex :
    get_best_guess
        ⟨[], ["HELLO".toList], compute_optimal_first_guess ["HELLO".toList]⟩
        defaultConfig [] = none ∧
    filter_words_with_feedback ["HELLO".toList]
        (([] : List (Word × List String)).map fun r => decodeRecord r.1 r.2) =
      ["HELLO".toList] := by
  constructor
  · show compute_optimal_first_guess ["HELLO".toList] = none
    decide
  · decide

/-- Claim C6, amended: for every *non-empty* history over loaded
lexicons and any configuration whose candidate cap is non-zero,
`best_guess` returns none iff filtering the guess lexicon by the
decoded history yields the empty set (an inconsistent history is not an
error); on the empty history `best_guess` instead returns the cached
first guess, which can be none even though nothing was filtered. -/
theorem C6_none_iff_filter_empty :
    (∀ (wm : WordManager) (cfg : SolverConfig) (grs : List (Word × List String)),
      grs ≠ [] → 1 ≤ usizeCast cfg.candidate_cap →
      (get_best_guess wm cfg grs = none ↔
        filter_words_with_feedback wm.guess_words
          (grs.map fun r => decodeRecord r.1 r.2) = [])) ∧
    (∀ (wm : WordManager) (cfg : SolverConfig),
      get_best_guess wm cfg [] = wm.optimal_first_guess) := by
  refine ⟨fun wm cfg grs hne hcap => ?_, fun wm cfg => rfl⟩
  have hempty : grs.isEmpty = false := by
    cases grs with
    | nil => exact absurd rfl hne
    | cons a l => rfl
  rw [get_best_guess, hempty]
  simp only [Bool.false_eq_true, if_false]
  set internal := grs.map fun r => decodeRecord r.1 r.2 with hinternal
  set eligible := filter_words_with_feedback wm.guess_words internal with heligible
  by_cases helig : eligible.isEmpty
  · rw [if_pos helig]
    simp only [true_iff]
    exact List.isEmpty_iff.mp helig
  · rw [if_neg helig]
    have hne' : eligible ≠ [] := fun hnil => helig (by rw [hnil]; rfl)
    obtain ⟨w, hw⟩ := solver_get_best_guess_isSome cfg eligible internal hne' hcap
    rw [hw]
    constructor
    · intro hcontr
      cases hcontr
    · intro hcontr
      exact absurd hcontr hne'

/-- Witness for C6: a consistent one-record history over a two-word
lexicon keeps both words, and `best_guess` indeed returns a word. -/
theorem C6_none_iff_filter_empty_witness :
    get_best_guess ⟨[], ["CRANE".toList, "SLATE".toList], some "TARES".toList⟩
        defaultConfig
        [("QQQQQ".toList, ["X", "X", "X", "X", "X"])] = none ↔
      filter_words_with_feedback ["CRANE".toList, "SLATE".toList]
        ([("QQQQQ".toList, ["X", "X", "X", "X", "X"])].map fun r => decodeRecord r.1 r.2) =
        [] :=
  C6_none_iff_filter_empty.1
    ⟨[], ["CRANE".toList, "SLATE".toList], some "TARES".toList⟩ defaultConfig
    [("QQQQQ".toList, ["X", "X", "X", "X", "X"])]
    (by decide)
    (by
      show 1 ≤ usizeCast (200 : Int)
      decide)

/-! ## Entropy: exact values and the information-theoretic bound -/

theorem logb_two_pow (n : ℕ) : Real.logb 2 ((2 : ℝ) ^ n) = n := by
  rw [Real.logb_pow, Real.logb_self_eq_one (by norm_num)]
  ring

theorem logb2_quarter : Real.logb 2 ((1 : ℝ) / 4) = -2 := by
  rw [show (1 / 4 : ℝ) = ((2 : ℝ) ^ (2 : ℕ))⁻¹ by norm_num, Real.logb_inv, logb_two_pow]
  push_cast
  ring

theorem logb2_half : Real.logb 2 ((1 : ℝ) / 2) = -1 := by
  rw [show (1 / 2 : ℝ) = ((2 : ℝ) ^ (1 : ℕ))⁻¹ by norm_num, Real.logb_inv, logb_two_pow]
  push_cast
  ring

theorem logb2_four : Real.logb 2 (4 : ℝ) = 2 := by
  rw [show (4 : ℝ) = (2 : ℝ) ^ (2 : ℕ) by norm_num, logb_two_pow]
  push_cast
  ring

theorem count_beq_bridge (p : List Char) (l : List (List Char)) :
    List.count p l = @List.count (List Char) instBEqOfDecidableEq p l := by
  induction l with
  | nil => rfl
  | cons x rest ih =>
      rw [List.count_cons, @List.count_cons (List Char) instBEqOfDecidableEq, ih]
      congr 1
      by_cases hxp : x = p
      · subst hxp
        simp
      · simp [hxp]

/-- The guard `probability > 0` inside `calculate_entropy` always holds
for a pattern class, so the entropy is the plain Shannon sum. -/
theorem calculate_entropy_eq (c : Word) (R : List Word) (h2 : 2 ≤ R.length) :
    calculate_entropy c R =
      ((R.map fun t => simulatePattern c t).dedup.map fun p =>
        -(((R.map fun t => simulatePattern c t).count p : ℝ) / (R.length : ℝ) *
          Real.logb 2
            (((R.map fun t => simulatePattern c t).count p : ℝ) / (R.length : ℝ)))).sum := by
  rw [calculate_entropy]
  rw [if_neg (by omega)]
  refine congrArg List.sum (List.map_congr_left ?_)
  intro p hp
  have hmem : p ∈ R.map fun t => simulatePattern c t := (List.dedup_sublist _).mem hp
  have hpos : 0 < (R.map fun t => simulatePattern c t).count p :=
    List.count_pos_iff.mpr hmem
  have hn : (0 : ℝ) < (R.length : ℝ) := by
    have : 0 < R.length := by omega
    exact_mod_cast this
  rw [if_pos]
  positivity

/-- Gibbs-type bound: the entropy of a candidate never exceeds
`log2 |R|` — every pattern class has probability at least `1/|R|`. -/
theorem calculate_entropy_le_logb (c : Word) (R : List Word) :
    calculate_entropy c R ≤ Real.logb 2 (R.length : ℝ) := by
  by_cases h2 : 2 ≤ R.length
  · rw [calculate_entropy_eq c R h2]
    set pats := R.map fun t => simulatePattern c t with hpats
    have hlen : pats.length = R.length := by
      rw [hpats, List.length_map]
    have hn : (0 : ℝ) < (R.length : ℝ) := by
      have : 0 < R.length := by omega
      exact_mod_cast this
    have hstep : ∀ p ∈ pats.dedup,
        -((pats.count p : ℝ) / (R.length : ℝ) *
            Real.logb 2 ((pats.count p : ℝ) / (R.length : ℝ))) ≤
          (pats.count p : ℝ) / (R.length : ℝ) * Real.logb 2 (R.length : ℝ) := by
      intro p hp
      have hmem : p ∈ pats := (List.dedup_sublist _).mem hp
      have hcpos : 0 < pats.count p := List.count_pos_iff.mpr hmem
      have hcposR : (0 : ℝ) < (pats.count p : ℝ) := by exact_mod_cast hcpos
      have hfrac : (0 : ℝ) < (pats.count p : ℝ) / (R.length : ℝ) := by positivity
      have hineq : -Real.logb 2 ((pats.count p : ℝ) / (R.length : ℝ)) ≤
          Real.logb 2 (R.length : ℝ) := by
        rw [← Real.logb_inv]
        have hinv : ((pats.count p : ℝ) / (R.length : ℝ))⁻¹ ≤ (R.length : ℝ) := by
          rw [inv_div]
          have hc1 : (1 : ℝ) ≤ (pats.count p : ℝ) := by exact_mod_cast hcpos
          calc (R.length : ℝ) / (pats.count p : ℝ) ≤ (R.length : ℝ) / 1 := by
                apply div_le_div_of_nonneg_left (le_of_lt hn) (by norm_num) hc1
            _ = (R.length : ℝ) := by norm_num
        exact (Real.logb_le_logb (by norm_num) (by positivity) hn).mpr hinv
      calc -((pats.count p : ℝ) / (R.length : ℝ) *
              Real.logb 2 ((pats.count p : ℝ) / (R.length : ℝ)))
          = (pats.count p : ℝ) / (R.length : ℝ) *
              (-Real.logb 2 ((pats.count p : ℝ) / (R.length : ℝ))) := by ring
        _ ≤ (pats.count p : ℝ) / (R.length : ℝ) * Real.logb 2 (R.length : ℝ) := by
              apply mul_le_mul_of_nonneg_left hineq (le_of_lt hfrac)
    calc (pats.dedup.map fun p =>
            -((pats.count p : ℝ) / (R.length : ℝ) *
              Real.logb 2 ((pats.count p : ℝ) / (R.length : ℝ)))).sum
        ≤ (pats.dedup.map fun p =>
            (pats.count p : ℝ) / (R.length : ℝ) * Real.logb 2 (R.length : ℝ)).sum :=
          List.sum_le_sum hstep
      _ = Real.logb 2 (R.length : ℝ) := by
          have hfactor : (pats.dedup.map fun p =>
              (pats.count p : ℝ) / (R.length : ℝ) * Real.logb 2 (R.length : ℝ)).sum =
              ((pats.dedup.map fun p => (pats.count p : ℝ)).sum / (R.length : ℝ)) *
                Real.logb 2 (R.length : ℝ) := by
            rw [show (fun p => (pats.count p : ℝ) / (R.length : ℝ) *
                Real.logb 2 (R.length : ℝ)) =
                (fun p => (fun q => (pats.count q : ℝ)) p *
                  (Real.logb 2 (R.length : ℝ) / (R.length : ℝ))) from by
              funext p
              ring]
            rw [List.sum_map_mul_right]
            ring
          rw [hfactor]
          have hcnt0 : (List.map (fun p => List.count p pats) pats.dedup).sum =
              pats.length := by
            rw [List.map_congr_left fun p _ => count_beq_bridge p pats]
            exact List.sum_map_count_dedup_eq_length pats
          have hcnt : (pats.dedup.map fun p => (pats.count p : ℝ)).sum =
              (pats.length : ℝ) := by
            rw [show (fun p => (pats.count p : ℝ)) =
                (Nat.cast ∘ fun p => List.count p pats) from rfl, List.comp_map,
              ← Nat.cast_list_sum, hcnt0]
          rw [hcnt, hlen, div_self (ne_of_gt hn), one_mul]
  · rw [calculate_entropy, if_pos (by omega)]
    interval_cases h : R.length
    · norm_num [Real.logb_zero]
    · norm_num [Real.logb_one]

/-! ## Scoring-loop run lemmas -/

theorem scoreLoopSpec_nil (cfg : SolverConfig) (remaining : List Word)
    (best : Option (Word × ℝ)) (n : Nat) :
    scoreLoopSpec cfg remaining [] best n = best.map Prod.fst := rfl

theorem scoreLoopSpec_cons (cfg : SolverConfig) (remaining : List Word) (c : Word)
    (rest : List Word) (best : Option (Word × ℝ)) (processed : Nat) :
    scoreLoopSpec cfg remaining (c :: rest) best processed =
      if beatsBest best (combinedScore remaining c) then
        if cfg.early_termination_enabled ∧
            cfg.early_termination_threshold ≤ calculate_entropy c remaining then some c
        else if 100 ≤ processed + 1 then some c
        else scoreLoopSpec cfg remaining rest
          (some (c, combinedScore remaining c)) (processed + 1)
      else
        if 100 ≤ processed + 1 then best.map Prod.fst
        else scoreLoopSpec cfg remaining rest best (processed + 1) := rfl

theorem combinedScore_eq (remaining : List Word) (c : Word) :
    combinedScore remaining c = calculate_entropy c remaining +
      (if remaining.contains c then (0.1 : ℝ) else 0.0) := by
  rw [combinedScore]
  ring

/-- Any candidate's combined score is at most `log2 |R| + 0.1`. -/
theorem combinedScore_le_high (remaining : List Word) (c : Word) :
    combinedScore remaining c ≤ Real.logb 2 (remaining.length : ℝ) + 0.1 := by
  rw [combinedScore_eq]
  have hent := calculate_entropy_le_logb c remaining
  by_cases hmem : remaining.contains c
  · rw [if_pos hmem]
    linarith
  · rw [if_neg hmem]
    norm_num
    linarith

/-- A candidate outside the remaining set receives no bonus. -/
theorem combinedScore_le_of_not_mem (remaining : List Word) (c : Word)
    (h : remaining.contains c = false) :
    combinedScore remaining c ≤ Real.logb 2 (remaining.length : ℝ) := by
  rw [combinedScore_eq, h]
  have hent := calculate_entropy_le_logb c remaining
  norm_num
  linarith

/-- Once the best score dominates every remaining candidate, the loop
keeps it to the end. -/
theorem scoreLoop_const_of_le (remaining : List Word) :
    ∀ (cands : List Word) (w : Word) (s : ℝ) (n : Nat),
      (∀ c ∈ cands, combinedScore remaining c ≤ s) →
      scoreLoop remaining cands (some (w, s)) n = some w := by
  intro cands
  induction cands with
  | nil => exact fun w s n _ => rfl
  | cons c rest ih =>
      intro w s n hle
      rw [scoreLoop_cons]
      have hnb : ¬ beatsBest (some (w, s)) (combinedScore remaining c) := by
        show ¬ (s < combinedScore remaining c)
        push_neg
        exact hle c (List.mem_cons_self c rest)
      rw [if_neg hnb]
      by_cases h100 : 100 ≤ n + 1
      · rw [if_pos h100]
        rfl
      · rw [if_neg h100]
        exact ih w s (n + 1) fun d hd => hle d (List.mem_cons_of_mem c hd)


/-! ## Exact entropies on the example data -/

theorem entropy_AAAAA_lexicon :
    calculate_entropy "AAAAA".toList exampleLexicon = 1.5 := by
  rw [calculate_entropy_eq _ _ (by decide)]
  rw [show exampleLexicon.map (fun t => simulatePattern "AAAAA".toList t) =
      ["GGGGG".toList, "GGGGX".toList, "XXXXX".toList, "XXXXX".toList] from by decide]
  rw [show (["GGGGG".toList, "GGGGX".toList, "XXXXX".toList, "XXXXX".toList] : List (List Char)).dedup =
      ["GGGGG".toList, "GGGGX".toList, "XXXXX".toList] from by decide]
  simp only [List.map_cons, List.map_nil, List.sum_cons, List.sum_nil]
  rw [show List.count "GGGGG".toList
      ["GGGGG".toList, "GGGGX".toList, "XXXXX".toList, "XXXXX".toList] = 1 from by decide]
  rw [show List.count "GGGGX".toList
      ["GGGGG".toList, "GGGGX".toList, "XXXXX".toList, "XXXXX".toList] = 1 from by decide]
  rw [show List.count "XXXXX".toList
      ["GGGGG".toList, "GGGGX".toList, "XXXXX".toList, "XXXXX".toList] = 2 from by decide]
  rw [show exampleLexicon.length = 4 from rfl]
  rw [show ((1 : ℕ) : ℝ) / ((4 : ℕ) : ℝ) = (1 : ℝ) / 4 from by push_cast; ring]
  rw [show ((2 : ℕ) : ℝ) / ((4 : ℕ) : ℝ) = (1 : ℝ) / 2 from by push_cast; ring]
  rw [logb2_quarter]
  rw [logb2_half]
  ring

theorem entropy_AAAAL_lexicon :
    calculate_entropy "AAAAL".toList exampleLexicon = 1.5 := by
  rw [calculate_entropy_eq _ _ (by decide)]
  rw [show exampleLexicon.map (fun t => simulatePattern "AAAAL".toList t) =
      ["GGGGX".toList, "GGGGG".toList, "XXXXX".toList, "XXXXX".toList] from by decide]
  rw [show (["GGGGX".toList, "GGGGG".toList, "XXXXX".toList, "XXXXX".toList] : List (List Char)).dedup =
      ["GGGGX".toList, "GGGGG".toList, "XXXXX".toList] from by decide]
  simp only [List.map_cons, List.map_nil, List.sum_cons, List.sum_nil]
  rw [show List.count "GGGGX".toList
      ["GGGGX".toList, "GGGGG".toList, "XXXXX".toList, "XXXXX".toList] = 1 from by decide]
  rw [show List.count "GGGGG".toList
      ["GGGGX".toList, "GGGGG".toList, "XXXXX".toList, "XXXXX".toList] = 1 from by decide]
  rw [show List.count "XXXXX".toList
      ["GGGGX".toList, "GGGGG".toList, "XXXXX".toList, "XXXXX".toList] = 2 from by decide]
  rw [show exampleLexicon.length = 4 from rfl]
  rw [show ((1 : ℕ) : ℝ) / ((4 : ℕ) : ℝ) = (1 : ℝ) / 4 from by push_cast; ring]
  rw [show ((2 : ℕ) : ℝ) / ((4 : ℕ) : ℝ) = (1 : ℝ) / 2 from by push_cast; ring]
  rw [logb2_quarter]
  rw [logb2_half]
  ring

theorem entropy_TTTTT_lexicon :
    calculate_entropy "TTTTT".toList exampleLexicon = 1.5 := by
  rw [calculate_entropy_eq _ _ (by decide)]
  rw [show exampleLexicon.map (fun t => simulatePattern "TTTTT".toList t) =
      ["XXXXX".toList, "XXXXX".toList, "GGGGG".toList, "GGGGX".toList] from by decide]
  rw [show (["XXXXX".toList, "XXXXX".toList, "GGGGG".toList, "GGGGX".toList] : List (List Char)).dedup =
      ["XXXXX".toList, "GGGGG".toList, "GGGGX".toList] from by decide]
  simp only [List.map_cons, List.map_nil, List.sum_cons, List.sum_nil]
  rw [show List.count "XXXXX".toList
      ["XXXXX".toList, "XXXXX".toList, "GGGGG".toList, "GGGGX".toList] = 2 from by decide]
  rw [show List.count "GGGGG".toList
      ["XXXXX".toList, "XXXXX".toList, "GGGGG".toList, "GGGGX".toList] = 1 from by decide]
  rw [show List.count "GGGGX".toList
      ["XXXXX".toList, "XXXXX".toList, "GGGGG".toList, "GGGGX".toList] = 1 from by decide]
  rw [show exampleLexicon.length = 4 from rfl]
  rw [show ((1 : ℕ) : ℝ) / ((4 : ℕ) : ℝ) = (1 : ℝ) / 4 from by push_cast; ring]
  rw [show ((2 : ℕ) : ℝ) / ((4 : ℕ) : ℝ) = (1 : ℝ) / 2 from by push_cast; ring]
  rw [logb2_quarter]
  rw [logb2_half]
  ring

theorem entropy_TTTTE_lexicon :
    calculate_entropy "TTTTE".toList exampleLexicon = 1.5 := by
  rw [calculate_entropy_eq _ _ (by decide)]
  rw [show exampleLexicon.map (fun t => simulatePattern "TTTTE".toList t) =
      ["XXXXX".toList, "XXXXX".toList, "GGGGX".toList, "GGGGG".toList] from by decide]
  rw [show (["XXXXX".toList, "XXXXX".toList, "GGGGX".toList, "GGGGG".toList] : List (List Char)).dedup =
      ["XXXXX".toList, "GGGGX".toList, "GGGGG".toList] from by decide]
  simp only [List.map_cons, List.map_nil, List.sum_cons, List.sum_nil]
  rw [show List.count "XXXXX".toList
      ["XXXXX".toList, "XXXXX".toList, "GGGGX".toList, "GGGGG".toList] = 2 from by decide]
  rw [show List.count "GGGGX".toList
      ["XXXXX".toList, "XXXXX".toList, "GGGGX".toList, "GGGGG".toList] = 1 from by decide]
  rw [show List.count "GGGGG".toList
      ["XXXXX".toList, "XXXXX".toList, "GGGGX".toList, "GGGGG".toList] = 1 from by decide]
  rw [show exampleLexicon.length = 4 from rfl]
  rw [show ((1 : ℕ) : ℝ) / ((4 : ℕ) : ℝ) = (1 : ℝ) / 4 from by push_cast; ring]
  rw [show ((2 : ℕ) : ℝ) / ((4 : ℕ) : ℝ) = (1 : ℝ) / 2 from by push_cast; ring]
  rw [logb2_quarter]
  rw [logb2_half]
  ring

theorem entropy_SLATE_lexicon :
    calculate_entropy "SLATE".toList exampleLexicon = 2 := by
  rw [calculate_entropy_eq _ _ (by decide)]
  rw [show exampleLexicon.map (fun t => simulatePattern "SLATE".toList t) =
      ["XXGXX".toList, "XYGXX".toList, "XXXGX".toList, "XXXGG".toList] from by decide]
  rw [show (["XXGXX".toList, "XYGXX".toList, "XXXGX".toList, "XXXGG".toList] : List (List Char)).dedup =
      ["XXGXX".toList, "XYGXX".toList, "XXXGX".toList, "XXXGG".toList] from by decide]
  simp only [List.map_cons, List.map_nil, List.sum_cons, List.sum_nil]
  rw [show List.count "XXGXX".toList
      ["XXGXX".toList, "XYGXX".toList, "XXXGX".toList, "XXXGG".toList] = 1 from by decide]
  rw [show List.count "XYGXX".toList
      ["XXGXX".toList, "XYGXX".toList, "XXXGX".toList, "XXXGG".toList] = 1 from by decide]
  rw [show List.count "XXXGX".toList
      ["XXGXX".toList, "XYGXX".toList, "XXXGX".toList, "XXXGG".toList] = 1 from by decide]
  rw [show List.count "XXXGG".toList
      ["XXGXX".toList, "XYGXX".toList, "XXXGX".toList, "XXXGG".toList] = 1 from by decide]
  rw [show exampleLexicon.length = 4 from rfl]
  rw [show ((1 : ℕ) : ℝ) / ((4 : ℕ) : ℝ) = (1 : ℝ) / 4 from by push_cast; ring]
  rw [logb2_quarter]
  ring

theorem entropy_AAAAA_remaining :
    calculate_entropy "AAAAA".toList exampleRemaining = 1.5 := by
  rw [calculate_entropy_eq _ _ (by decide)]
  rw [show exampleRemaining.map (fun t => simulatePattern "AAAAA".toList t) =
      ["GGGGG".toList, "GGXXX".toList, "XXXGG".toList, "XXXGG".toList] from by decide]
  rw [show (["GGGGG".toList, "GGXXX".toList, "XXXGG".toList, "XXXGG".toList] : List (List Char)).dedup =
      ["GGGGG".toList, "GGXXX".toList, "XXXGG".toList] from by decide]
  simp only [List.map_cons, List.map_nil, List.sum_cons, List.sum_nil]
  rw [show List.count "GGGGG".toList
      ["GGGGG".toList, "GGXXX".toList, "XXXGG".toList, "XXXGG".toList] = 1 from by decide]
  rw [show List.count "GGXXX".toList
      ["GGGGG".toList, "GGXXX".toList, "XXXGG".toList, "XXXGG".toList] = 1 from by decide]
  rw [show List.count "XXXGG".toList
      ["GGGGG".toList, "GGXXX".toList, "XXXGG".toList, "XXXGG".toList] = 2 from by decide]
  rw [show exampleRemaining.length = 4 from rfl]
  rw [show ((1 : ℕ) : ℝ) / ((4 : ℕ) : ℝ) = (1 : ℝ) / 4 from by push_cast; ring]
  rw [show ((2 : ℕ) : ℝ) / ((4 : ℕ) : ℝ) = (1 : ℝ) / 2 from by push_cast; ring]
  rw [logb2_quarter]
  rw [logb2_half]
  ring

theorem entropy_AABBB_remaining :
    calculate_entropy "AABBB".toList exampleRemaining = 2 := by
  rw [calculate_entropy_eq _ _ (by decide)]
  rw [show exampleRemaining.map (fun t => simulatePattern "AABBB".toList t) =
      ["GGXXX".toList, "GGGGG".toList, "YYGYY".toList, "YYXXX".toList] from by decide]
  rw [show (["GGXXX".toList, "GGGGG".toList, "YYGYY".toList, "YYXXX".toList] : List (List Char)).dedup =
      ["GGXXX".toList, "GGGGG".toList, "YYGYY".toList, "YYXXX".toList] from by decide]
  simp only [List.map_cons, List.map_nil, List.sum_cons, List.sum_nil]
  rw [show List.count "GGXXX".toList
      ["GGXXX".toList, "GGGGG".toList, "YYGYY".toList, "YYXXX".toList] = 1 from by decide]
  rw [show List.count "GGGGG".toList
      ["GGXXX".toList, "GGGGG".toList, "YYGYY".toList, "YYXXX".toList] = 1 from by decide]
  rw [show List.count "YYGYY".toList
      ["GGXXX".toList, "GGGGG".toList, "YYGYY".toList, "YYXXX".toList] = 1 from by decide]
  rw [show List.count "YYXXX".toList
      ["GGXXX".toList, "GGGGG".toList, "YYGYY".toList, "YYXXX".toList] = 1 from by decide]
  rw [show exampleRemaining.length = 4 from rfl]
  rw [show ((1 : ℕ) : ℝ) / ((4 : ℕ) : ℝ) = (1 : ℝ) / 4 from by push_cast; ring]
  rw [logb2_quarter]
  ring

/-! ## Exact combined scores on the example data -/

theorem score_AAAAA_lexicon :
    combinedScore exampleLexicon "AAAAA".toList = 1.6 := by
  rw [combinedScore_eq, entropy_AAAAA_lexicon,
    if_pos (by decide : exampleLexicon.contains "AAAAA".toList = true)]
  norm_num

theorem score_AAAAL_lexicon :
    combinedScore exampleLexicon "AAAAL".toList = 1.6 := by
  rw [combinedScore_eq, entropy_AAAAL_lexicon,
    if_pos (by decide : exampleLexicon.contains "AAAAL".toList = true)]
  norm_num

theorem score_TTTTT_lexicon :
    combinedScore exampleLexicon "TTTTT".toList = 1.6 := by
  rw [combinedScore_eq, entropy_TTTTT_lexicon,
    if_pos (by decide : exampleLexicon.contains "TTTTT".toList = true)]
  norm_num

theorem score_TTTTE_lexicon :
    combinedScore exampleLexicon "TTTTE".toList = 1.6 := by
  rw [combinedScore_eq, entropy_TTTTE_lexicon,
    if_pos (by decide : exampleLexicon.contains "TTTTE".toList = true)]
  norm_num

theorem score_SLATE_lexicon :
    combinedScore exampleLexicon "SLATE".toList = 2 := by
  rw [combinedScore_eq, entropy_SLATE_lexicon,
    if_neg (by decide : ¬ exampleLexicon.contains "SLATE".toList = true)]
  norm_num

theorem score_AAAAA_remaining :
    combinedScore exampleRemaining "AAAAA".toList = 1.6 := by
  rw [combinedScore_eq, entropy_AAAAA_remaining,
    if_pos (by decide : exampleRemaining.contains "AAAAA".toList = true)]
  norm_num

theorem score_AABBB_remaining :
    combinedScore exampleRemaining "AABBB".toList = 2.1 := by
  rw [combinedScore_eq, entropy_AABBB_remaining,
    if_pos (by decide : exampleRemaining.contains "AABBB".toList = true)]
  norm_num

/-! ## Claim C3: the selector can leave the lexicon -/

set_option maxRecDepth 10000 in
theorem pool_lexicon_take :
    (get_candidate_words defaultConfig exampleLexicon).take 5 =
      ["AAAAA".toList, "AAAAL".toList, "TTTTT".toList, "TTTTE".toList, "SLATE".toList] := by
  rw [get_candidate_words]
  rw [show defaultConfig.include_killer_words = false from rfl]
  rw [show defaultConfig.candidate_cap = (200 : Int) from rfl]
  decide

set_option maxRecDepth 10000 in
theorem pool_lexicon_eq :
    get_candidate_words defaultConfig exampleLexicon =
      "AAAAA".toList :: "AAAAL".toList :: "TTTTT".toList :: "TTTTE".toList :: "SLATE".toList ::
        (get_candidate_words defaultConfig exampleLexicon).drop 5 := by
  conv_lhs => rw [← List.take_append_drop 5 (get_candidate_words defaultConfig exampleLexicon)]
  rw [pool_lexicon_take]
  rfl

set_option maxRecDepth 10000 in
theorem pool_lexicon_tail_not_mem :
    ((get_candidate_words defaultConfig exampleLexicon).drop 5).all
      (fun c => !(exampleLexicon.contains c)) = true := by
  rw [get_candidate_words]
  rw [show defaultConfig.include_killer_words = false from rfl]
  rw [show defaultConfig.candidate_cap = (200 : Int) from rfl]
  decide

/-- The scoring loop on the example lexicon: the strategic word `SLATE`
(entropy 2) beats every lexicon word (score 1.6 each) and no later
candidate can overtake it. -/
theorem solver_run_exampleLexicon :
    solver_get_best_guess defaultConfig exampleLexicon
      [⟨"QQQQQ".toList, [.Gray, .Gray, .Gray, .Gray, .Gray]⟩] = some "SLATE".toList := by
  rw [solver_get_best_guess]
  rw [show exampleLexicon.isEmpty = false from rfl]
  simp only [Bool.false_eq_true, if_false]
  rw [if_neg (by decide : ¬ exampleLexicon.length ≤ 2)]
  rw [pool_lexicon_eq]
  rw [scoreLoop_cons,
    if_pos (show beatsBest none (combinedScore exampleLexicon "AAAAA".toList) from trivial)]
  rw [if_neg (show ¬ (5.0 : ℝ) ≤ calculate_entropy "AAAAA".toList exampleLexicon from by
    rw [entropy_AAAAA_lexicon]
    norm_num)]
  rw [if_neg (show ¬ 100 ≤ 0 + 1 from by norm_num)]
  rw [scoreLoop_cons,
    if_neg (show ¬ beatsBest
        (some ("AAAAA".toList, combinedScore exampleLexicon "AAAAA".toList))
        (combinedScore exampleLexicon "AAAAL".toList) from by
      show ¬ (combinedScore exampleLexicon "AAAAA".toList <
        combinedScore exampleLexicon "AAAAL".toList)
      rw [score_AAAAA_lexicon, score_AAAAL_lexicon]
      norm_num)]
  rw [if_neg (show ¬ 100 ≤ 1 + 1 from by norm_num)]
  rw [scoreLoop_cons,
    if_neg (show ¬ beatsBest
        (some ("AAAAA".toList, combinedScore exampleLexicon "AAAAA".toList))
        (combinedScore exampleLexicon "TTTTT".toList) from by
      show ¬ (combinedScore exampleLexicon "AAAAA".toList <
        combinedScore exampleLexicon "TTTTT".toList)
      rw [score_AAAAA_lexicon, score_TTTTT_lexicon]
      norm_num)]
  rw [if_neg (show ¬ 100 ≤ 2 + 1 from by norm_num)]
  rw [scoreLoop_cons,
    if_neg (show ¬ beatsBest
        (some ("AAAAA".toList, combinedScore exampleLexicon "AAAAA".toList))
        (combinedScore exampleLexicon "TTTTE".toList) from by
      show ¬ (combinedScore exampleLexicon "AAAAA".toList <
        combinedScore exampleLexicon "TTTTE".toList)
      rw [score_AAAAA_lexicon, score_TTTTE_lexicon]
      norm_num)]
  rw [if_neg (show ¬ 100 ≤ 3 + 1 from by norm_num)]
  rw [scoreLoop_cons,
    if_pos (show beatsBest
        (some ("AAAAA".toList, combinedScore exampleLexicon "AAAAA".toList))
        (combinedScore exampleLexicon "SLATE".toList) from by
      show combinedScore exampleLexicon "AAAAA".toList <
        combinedScore exampleLexicon "SLATE".toList
      rw [score_AAAAA_lexicon, score_SLATE_lexicon]
      norm_num)]
  rw [if_neg (show ¬ (5.0 : ℝ) ≤ calculate_entropy "SLATE".toList exampleLexicon from by
    rw [entropy_SLATE_lexicon]
    norm_num)]
  rw [if_neg (show ¬ 100 ≤ 4 + 1 from by norm_num)]
  apply scoreLoop_const_of_le
  intro c hc
  rw [score_SLATE_lexicon]
  have hnm : exampleLexicon.contains c = false := by
    have hall := pool_lexicon_tail_not_mem
    rw [List.all_eq_true] at hall
    have := hall c hc
    simpa using this
  have hle := combinedScore_le_of_not_mem exampleLexicon c hnm
  rw [show exampleLexicon.length = 4 from rfl,
    show ((4 : ℕ) : ℝ) = (4 : ℝ) from by norm_num, logb2_four] at hle
  exact hle

/-- The full FFI pipeline on the example lexicon and the all-gray
`QQQQQ` record, which keeps every lexicon word. -/
theorem ffi_run_exampleLexicon :
    get_best_guess ⟨[], exampleLexicon, compute_optimal_first_guess exampleLexicon⟩
      defaultConfig [("QQQQQ".toList, ["X", "X", "X", "X", "X"])] = some "SLATE".toList := by
  rw [get_best_guess]
  rw [show ([("QQQQQ".toList, ["X", "X", "X", "X", "X"])] :
      List (Word × List String)).isEmpty = false from rfl]
  simp only [Bool.false_eq_true, if_false]
  rw [show ([("QQQQQ".toList, ["X", "X", "X", "X", "X"])] :
        List (Word × List String)).map (fun r => decodeRecord r.1 r.2) =
      [⟨"QQQQQ".toList, [.Gray, .Gray, .Gray, .Gray, .Gray]⟩] from by decide]
  rw [show filter_words_with_feedback exampleLexicon
        [⟨"QQQQQ".toList, [.Gray, .Gray, .Gray, .Gray, .Gray]⟩] = exampleLexicon from by decide]
  rw [show exampleLexicon.isEmpty = false from rfl]
  simp only [Bool.false_eq_true, if_false]
  exact solver_run_exampleLexicon

/-- Whatever the scoring loop returns was one of its candidates (or the
incoming best). -/
theorem scoreLoop_mem (remaining : List Word) :
    ∀ (cands : List Word) (best : Option (Word × ℝ)) (n : Nat) (w : Word),
      scoreLoop remaining cands best n = some w →
      (∃ s, best = some (w, s)) ∨ w ∈ cands := by
  intro cands
  induction cands with
  | nil =>
      intro best n w h
      rw [scoreLoop_nil] at h
      cases best with
      | none => cases h
      | some p =>
          refine Or.inl ⟨p.2, ?_⟩
          have : p.1 = w := Option.some.inj h
          rw [← this]
  | cons c rest ih =>
      intro best n w h
      rw [scoreLoop_cons] at h
      by_cases hb : beatsBest best (combinedScore remaining c)
      · rw [if_pos hb] at h
        by_cases he : (5.0 : ℝ) ≤ calculate_entropy c remaining
        · rw [if_pos he] at h
          exact Or.inr ((Option.some.inj h) ▸ List.mem_cons_self c rest)
        · rw [if_neg he] at h
          by_cases h100 : 100 ≤ n + 1
          · rw [if_pos h100] at h
            exact Or.inr ((Option.some.inj h) ▸ List.mem_cons_self c rest)
          · rw [if_neg h100] at h
            rcases ih _ _ _ h with ⟨s, hs⟩ | hmem
            · have : c = w := congrArg (fun o => (Option.getD o (w, 0)).1) hs
              exact Or.inr (this ▸ List.mem_cons_self c rest)
            · exact Or.inr (List.mem_cons_of_mem c hmem)
      · rw [if_neg hb] at h
        by_cases h100 : 100 ≤ n + 1
        · rw [if_pos h100] at h
          cases best with
          | none => cases h
          | some p =>
              refine Or.inl ⟨p.2, ?_⟩
              have : p.1 = w := Option.some.inj h
              rw [← this]
        · rw [if_neg h100] at h
          rcases ih _ _ _ h with hbest | hmem
          · exact Or.inl hbest
          · exact Or.inr (List.mem_cons_of_mem c hmem)

theorem mem_foldl_dedup :
    ∀ (strat acc : List Word) (w : Word),
      w ∈ strat.foldl (fun acc w => if acc.contains w then acc else acc ++ [w]) acc →
      w ∈ acc ∨ w ∈ strat := by
  intro strat
  induction strat with
  | nil => exact fun acc w h => Or.inl h
  | cons t rest ih =>
      intro acc w h
      rw [List.foldl_cons] at h
      rcases ih _ w h with hacc | hrest
      · by_cases hc : acc.contains t
        · rw [if_pos hc] at hacc
          exact Or.inl hacc
        · rw [if_neg hc] at hacc
          rcases List.mem_append.mp hacc with hacc' | ht
          · exact Or.inl hacc'
          · have : w = t := by simpa using ht
            exact Or.inr (this ▸ List.mem_cons_self t rest)
      · exact Or.inr (List.mem_cons_of_mem t hrest)

/-- Every pool entry is a remaining word or a curated strategic word. -/
theorem get_candidate_words_mem (cfg : SolverConfig) (remaining : List Word) (w : Word)
    (h : w ∈ get_candidate_words cfg remaining) :
    w ∈ remaining ∨ w ∈ get_killer_words ∨ w ∈ get_top_strategic_words := by
  rw [get_candidate_words] at h
  have h' : w ∈ (if cfg.include_killer_words then get_killer_words
      else get_top_strategic_words).foldl
        (fun acc w => if acc.contains w then acc else acc ++ [w]) remaining := by
    by_cases hcap :
        ((if cfg.include_killer_words then get_killer_words
          else get_top_strategic_words).foldl
          (fun acc w => if acc.contains w then acc else acc ++ [w]) remaining).length >
        usizeCast cfg.candidate_cap
    · rw [if_pos hcap] at h
      exact List.mem_of_mem_take h
    · rw [if_neg hcap] at h
      exact h
  rcases mem_foldl_dedup _ _ _ h' with hrem | hstrat
  · exact Or.inl hrem
  · by_cases hk : cfg.include_killer_words
    · rw [if_pos hk] at hstrat
      exact Or.inr (Or.inl hstrat)
    · rw [if_neg hk] at hstrat
      exact Or.inr (Or.inr hstrat)

/-- The solver's output is a remaining word or a curated strategic
word. -/
theorem solver_get_best_guess_mem (cfg : SolverConfig) (remaining : List Word)
    (grs : List GuessResult) (w : Word)
    (h : solver_get_best_guess cfg remaining grs = some w) :
    w ∈ remaining ∨ w ∈ get_killer_words ∨ w ∈ get_top_strategic_words := by
  rw [solver_get_best_guess] at h
  by_cases hempty : remaining.isEmpty
  · rw [if_pos hempty] at h
    cases h
  · rw [if_neg hempty] at h
    by_cases hlen : remaining.length ≤ 2
    · rw [if_pos hlen] at h
      cases remaining with
      | nil => cases h
      | cons a l =>
          have : a = w := Option.some.inj h
          exact Or.inl (this ▸ List.mem_cons_self a l)
    · rw [if_neg hlen] at h
      rcases scoreLoop_mem remaining _ _ _ _ h with ⟨s, hs⟩ | hmem
      · cases hs
      · exact get_candidate_words_mem cfg remaining w hmem

/-- Counterexample for C3 as stated: on the four-word lexicon of
`exampleLexicon` the selector returns `SLATE`, a strategic-list word
that is not a member of the Guesses lexicon. -/
theorem C3_selector_membership_cex :
    get_best_guess ⟨[], exampleLexicon, compute_optimal_first_guess exampleLexicon⟩
        defaultConfig [("QQQQQ".toList, ["X", "X", "X", "X", "X"])] =
      some "SLATE".toList ∧
    "SLATE".toList ∉ exampleLexicon :=
  ⟨ffi_run_exampleLexicon, by decide⟩

/-- Claim C3, amended: whenever `best_guess` returns a word over a
lexicon of five-letter words, the word has length five, but it is drawn
from `Guesses` *or* one of the curated strategic lists (or, on the
empty history, the probe list of the cached first guess) — not
necessarily from `Guesses` itself. -/
theorem C3_selector_membership_amended :
    ∀ (wm : WordManager) (cfg : SolverConfig) (grs : List (Word × List String)) (w : Word),
      (∀ u ∈ wm.guess_words, u.length = 5) →
      wm.optimal_first_guess = compute_optimal_first_guess wm.guess_words →
      get_best_guess wm cfg grs = some w →
      w.length = 5 ∧
        (w ∈ wm.guess_words ∨ w ∈ get_killer_words ∨ w ∈ get_top_strategic_words ∨
          w ∈ optimal_first_guesses) := by
  intro wm cfg grs w hlen hopt hsome
  by_cases hgrs : grs.isEmpty
  · rw [get_best_guess, if_pos hgrs, hopt, compute_optimal_first_guess] at hsome
    by_cases hemp : wm.guess_words.isEmpty
    · rw [if_pos hemp] at hsome
      cases hsome
    · rw [if_neg hemp, probeScan_eq_find?] at hsome
      have hmem := List.mem_of_find?_eq_some hsome
      have hplen : ∀ p ∈ optimal_first_guesses, p.length = 5 := by decide
      exact ⟨hplen w hmem, Or.inr (Or.inr (Or.inr hmem))⟩
  · rw [get_best_guess, if_neg hgrs] at hsome
    set internal := grs.map fun r => decodeRecord r.1 r.2 with hinternal
    set eligible := filter_words_with_feedback wm.guess_words internal with heligible
    by_cases helig : eligible.isEmpty
    · rw [if_pos helig] at hsome
      cases hsome
    · rw [if_neg helig] at hsome
      have hkill : ∀ u ∈ get_killer_words, u.length = 5 := by decide
      have htop : ∀ u ∈ get_top_strategic_words, u.length = 5 := by decide
      rcases solver_get_best_guess_mem cfg eligible internal w hsome with
        hmem | hmem | hmem
      · have hgw : w ∈ wm.guess_words := by
          rw [heligible, filter_words_with_feedback] at hmem
          exact (List.mem_filter.mp hmem).1
        exact ⟨hlen w hgw, Or.inl hgw⟩
      · exact ⟨hkill w hmem, Or.inr (Or.inl hmem)⟩
      · exact ⟨htop w hmem, Or.inr (Or.inr (Or.inl hmem))⟩

/-- Witness for C3: a two-word lexicon takes the small-remaining-set
shortcut and returns its first word, which satisfies the amended
membership. -/
theorem C3_selector_membership_amended_witness :
    "CRANE".toList.length = 5 ∧
      ("CRANE".toList ∈ ["CRANE".toList, "SLATE".toList] ∨
        "CRANE".toList ∈ get_killer_words ∨ "CRANE".toList ∈ get_top_strategic_words ∨
        "CRANE".toList ∈ optimal_first_guesses) :=
  C3_selector_membership_amended
    ⟨[], ["CRANE".toList, "SLATE".toList],
      compute_optimal_first_guess ["CRANE".toList, "SLATE".toList]⟩
    defaultConfig [("QQQQQ".toList, ["X", "X", "X", "X", "X"])] "CRANE".toList
    (by decide) rfl
    (by
      rw [get_best_guess]
      rw [show ([("QQQQQ".toList, ["X", "X", "X", "X", "X"])] :
          List (Word × List String)).isEmpty = false from rfl]
      simp only [Bool.false_eq_true, if_false]
      rw [show ([("QQQQQ".toList, ["X", "X", "X", "X", "X"])] :
            List (Word × List String)).map (fun r => decodeRecord r.1 r.2) =
          [⟨"QQQQQ".toList, [.Gray, .Gray, .Gray, .Gray, .Gray]⟩] from by decide]
      rw [show filter_words_with_feedback ["CRANE".toList, "SLATE".toList]
            [⟨"QQQQQ".toList, [.Gray, .Gray, .Gray, .Gray, .Gray]⟩] =
          ["CRANE".toList, "SLATE".toList] from by decide]
      rw [show (["CRANE".toList, "SLATE".toList] : List Word).isEmpty = false from rfl]
      simp only [Bool.false_eq_true, if_false]
      rw [solver_get_best_guess]
      rw [show (["CRANE".toList, "SLATE".toList] : List Word).isEmpty = false from rfl]
      simp only [Bool.false_eq_true, if_false]
      rw [if_pos (by decide : (["CRANE".toList, "SLATE".toList] : List Word).length ≤ 2)]
      rfl)

/-! ## Claim C4: the early-termination configuration is ignored -/

/-- A configuration with early termination enabled at a low threshold
`0.5`: per the spec, scoring should stop at the first best-updating
candidate whose entropy reaches `0.5`. -/
noncomputable def earlyConfig : SolverConfig :=
  { reference_mode := false,
    include_killer_words := false,
    candidate_cap := 200,
    early_termination_enabled := true,
    early_termination_threshold := 0.5,
    entropy_only_scoring := false }

/-- Any configuration, with the early-termination fields forced to the
values the code hardwires (`enabled`, threshold `5.0`). -/
noncomputable def hardcodedOverride (cfg : SolverConfig) : SolverConfig :=
  { reference_mode := cfg.reference_mode,
    include_killer_words := cfg.include_killer_words,
    candidate_cap := cfg.candidate_cap,
    early_termination_enabled := true,
    early_termination_threshold := 5.0,
    entropy_only_scoring := cfg.entropy_only_scoring }

set_option maxRecDepth 10000 in
theorem pool_remaining_take :
    (get_candidate_words earlyConfig exampleRemaining).take 2 =
      ["AAAAA".toList, "AABBB".toList] := by
  rw [get_candidate_words]
  rw [show earlyConfig.include_killer_words = false from rfl]
  rw [show earlyConfig.candidate_cap = (200 : Int) from rfl]
  decide

set_option maxRecDepth 10000 in
theorem pool_remaining_eq :
    get_candidate_words earlyConfig exampleRemaining =
      "AAAAA".toList :: "AABBB".toList ::
        (get_candidate_words earlyConfig exampleRemaining).drop 2 := by
  conv_lhs => rw [← List.take_append_drop 2 (get_candidate_words earlyConfig exampleRemaining)]
  rw [pool_remaining_take]
  rfl

/-- The code's run on `exampleRemaining`: the first candidate `AAAAA`
has entropy `1.5 ≥ 0.5`, but the loop compares against the hardwired
`5.0` and keeps going, so `AABBB` (score 2.1) wins. -/
theorem solver_run_exampleRemaining :
    solver_get_best_guess earlyConfig exampleRemaining [] = some "AABBB".toList := by
  rw [solver_get_best_guess]
  rw [show exampleRemaining.isEmpty = false from rfl]
  simp only [Bool.false_eq_true, if_false]
  rw [if_neg (by decide : ¬ exampleRemaining.length ≤ 2)]
  rw [pool_remaining_eq]
  rw [scoreLoop_cons,
    if_pos (show beatsBest none (combinedScore exampleRemaining "AAAAA".toList) from trivial)]
  rw [if_neg (show ¬ (5.0 : ℝ) ≤ calculate_entropy "AAAAA".toList exampleRemaining from by
    rw [entropy_AAAAA_remaining]
    norm_num)]
  rw [if_neg (show ¬ 100 ≤ 0 + 1 from by norm_num)]
  rw [scoreLoop_cons,
    if_pos (show beatsBest
        (some ("AAAAA".toList, combinedScore exampleRemaining "AAAAA".toList))
        (combinedScore exampleRemaining "AABBB".toList) from by
      show combinedScore exampleRemaining "AAAAA".toList <
        combinedScore exampleRemaining "AABBB".toList
      rw [score_AAAAA_remaining, score_AABBB_remaining]
      norm_num)]
  rw [if_neg (show ¬ (5.0 : ℝ) ≤ calculate_entropy "AABBB".toList exampleRemaining from by
    rw [entropy_AABBB_remaining]
    norm_num)]
  rw [if_neg (show ¬ 100 ≤ 1 + 1 from by norm_num)]
  apply scoreLoop_const_of_le
  intro c hc
  rw [score_AABBB_remaining]
  have hle := combinedScore_le_high exampleRemaining c
  rw [show exampleRemaining.length = 4 from rfl,
    show ((4 : ℕ) : ℝ) = (4 : ℝ) from by norm_num, logb2_four] at hle
  linarith

/-- The spec-described run on `exampleRemaining`: with the configured
threshold `0.5`, scoring stops at the very first candidate `AAAAA`
(entropy `1.5 ≥ 0.5`). -/
theorem solver_spec_run_exampleRemaining :
    solver_get_best_guess_spec earlyConfig exampleRemaining [] = some "AAAAA".toList := by
  rw [solver_get_best_guess_spec]
  rw [show exampleRemaining.isEmpty = false from rfl]
  simp only [Bool.false_eq_true, if_false]
  rw [if_neg (by decide : ¬ exampleRemaining.length ≤ 2)]
  rw [pool_remaining_eq]
  rw [scoreLoopSpec_cons,
    if_pos (show beatsBest none (combinedScore exampleRemaining "AAAAA".toList) from trivial)]
  rw [if_pos (show earlyConfig.early_termination_enabled = true ∧
      earlyConfig.early_termination_threshold ≤
        calculate_entropy "AAAAA".toList exampleRemaining from
    ⟨rfl, by
      rw [entropy_AAAAA_remaining]
      show (0.5 : ℝ) ≤ 1.5
      norm_num⟩)]

/-- Counterexample for C4 as stated: with early termination enabled at
threshold `0.5`, the spec mandates stopping at `AAAAA`, but the code
compares entropies against a hardwired local `5.0` and returns `AABBB`
instead — the configuration fields have no effect. -/
theorem C4_early_termination_cex :
    solver_get_best_guess earlyConfig exampleRemaining [] = some "AABBB".toList ∧
    solver_get_best_guess_spec earlyConfig exampleRemaining [] = some "AAAAA".toList ∧
    ("AABBB".toList : Word) ≠ "AAAAA".toList :=
  ⟨solver_run_exampleRemaining, solver_spec_run_exampleRemaining, by decide⟩

theorem scoreLoopSpec_hardcoded_eq (cfg : SolverConfig) (remaining : List Word) :
    ∀ (cands : List Word) (best : Option (Word × ℝ)) (n : Nat),
      scoreLoopSpec (hardcodedOverride cfg) remaining cands best n =
        scoreLoop remaining cands best n := by
  intro cands
  induction cands with
  | nil => intro best n; rfl
  | cons c rest ih =>
      intro best n
      rw [scoreLoopSpec_cons, scoreLoop_cons]
      by_cases hb : beatsBest best (combinedScore remaining c)
      · rw [if_pos hb, if_pos hb]
        by_cases he : (5.0 : ℝ) ≤ calculate_entropy c remaining
        · rw [if_pos he]
          rw [if_pos (show (hardcodedOverride cfg).early_termination_enabled = true ∧
              (hardcodedOverride cfg).early_termination_threshold ≤
                calculate_entropy c remaining from ⟨rfl, he⟩)]
        · rw [if_neg he]
          rw [if_neg (show ¬ ((hardcodedOverride cfg).early_termination_enabled = true ∧
              (hardcodedOverride cfg).early_termination_threshold ≤
                calculate_entropy c remaining) from fun h => he h.2)]
          by_cases h100 : 100 ≤ n + 1
          · rw [if_pos h100, if_pos h100]
          · rw [if_neg h100, if_neg h100]
            exact ih _ _
      · rw [if_neg hb, if_neg hb]
        by_cases h100 : 100 ≤ n + 1
        · rw [if_pos h100, if_pos h100]
        · rw [if_neg h100, if_neg h100]
          exact ih _ _

/-- Claim C4, amended: the scoring loop behaves as if early termination
were always enabled with threshold `5.0`; the configuration fields
`early_termination_enabled` and `early_termination_threshold` are never
consulted.  Formally, the code equals the spec-described loop run under
any configuration overridden with the hardwired values. -/
theorem C4_early_termination_amended (cfg : SolverConfig) (remaining : List Word)
    (grs : List GuessResult) :
    solver_get_best_guess cfg remaining grs =
      solver_get_best_guess_spec (hardcodedOverride cfg) remaining grs := by
  rw [solver_get_best_guess, solver_get_best_guess_spec]
  by_cases h1 : remaining.isEmpty
  · rw [if_pos h1, if_pos h1]
  · rw [if_neg h1, if_neg h1]
    by_cases h2 : remaining.length ≤ 2
    · rw [if_pos h2, if_pos h2]
    · rw [if_neg h2, if_neg h2]
      have hpool : get_candidate_words (hardcodedOverride cfg) remaining =
          get_candidate_words cfg remaining := rfl
      rw [hpool, scoreLoopSpec_hardcoded_eq]

end WrdlHelper
